import Mathlib

/-!
# Shallow embedding of the shader-optimizer pipeline (src/main.py)

The source program is a sequence of text-to-text passes driven by Python
regular expressions.  Texts are modelled as `List Char` (Python `str` is a
character sequence; the shader inputs are ASCII, so the `\s`, `\w`, `\d`
classes are modelled by their ASCII meaning).  Python slices `s[a:b]`
become `slice`, which like Python clamps out-of-range indices and returns
`[]` when `a ≥ b`.

Each regex of the source is embedded as a deterministic matcher that
mirrors the pattern atom by atom.  All the repetitions in these patterns
are greedy repetitions of character classes that are forced (the
character class of each atom is disjoint from the character that the
following atom needs, so declining a greedy step fails immediately);
hence the backtracking engine of Python returns exactly the
greedy-leftmost result computed here.  `re.finditer` (non-overlapping
left-to-right scan, resuming after each match) is `finditer` below, and
`re.sub` for the comment / whitespace / blank-line patterns is embedded
as an equivalent single left-to-right pass.
-/

namespace ShaderOpt

/-- Python regex class `\s` (ASCII): space, tab, newline, vertical tab,
form feed, carriage return. -/
def isSpaceC (c : Char) : Bool :=
  c = ' ' || c = '\t' || c = '\n' || c = '\x0b' || c = '\x0c' || c = '\r'

/-- Python regex class `\w` (ASCII): letters, digits, underscore. -/
def isWordC (c : Char) : Bool :=
  ('a' ≤ c && c ≤ 'z') || ('A' ≤ c && c ≤ 'Z') || ('0' ≤ c && c ≤ '9') || c = '_'

/-- Python regex class `\d`. -/
def isDigitC (c : Char) : Bool :=
  '0' ≤ c && c ≤ '9'

/-- Python slice `text[a:b]` (with clamping; empty when `a ≥ b`). -/
def slice (text : List Char) (a b : Nat) : List Char :=
  (text.drop a).take (b - a)

/-! ## remove_comments (src/main.py lines 53-69)

`re.sub(r'//.*', '', s)` removes, left to right, every `//` together
with the following characters up to (excluding) the next newline.
State machine: the flag is true while inside a line comment. -/

def rlGo : Bool → List Char → List Char
  | _, [] => []
  | true, c :: t => if c = '\n' then c :: rlGo false t else rlGo true t
  | false, '/' :: '/' :: t => rlGo true t
  | false, c :: t => c :: rlGo false t

def removeLineComments (cs : List Char) : List Char :=
  rlGo false cs

/-- Does the list contain the character `x` immediately followed by `y`? -/
def hasAdjPair (x y : Char) : List Char → Bool
  | a :: b :: t => (a = x && b = y) || hasAdjPair x y (b :: t)
  | _ => false

/-- Does the list contain a `*` immediately followed by `/` (a block-comment
terminator)?  Used to decide whether the block-comment regex matches at an
opener: `/\*[^*]*\*+(?:[^/*][^*]*\*+)*/` matches at `/*` exactly when the
text after the opener contains such an adjacent pair, and the match then
extends through the first one (the regex consumes non-stars, then a
maximal star run, and stops at the first `/` directly after a star). -/
abbrev hasTerm (cs : List Char) : Bool :=
  hasAdjPair '*' '/' cs

/-- States of the block-comment pass: scanning normally, inside a matched
comment before a star, inside a matched comment after at least one star.
The two comment states mirror the regex atoms `[^*]*` and `\*+` of
`/\*[^*]*\*+(?:[^/*][^*]*\*+)*/`.  -/
inductive RbState where
  | normal : RbState
  | inC : RbState
  | inStar : RbState
deriving DecidableEq

/-- `re.sub(r'/\*[^*]*\*+(?:[^/*][^*]*\*+)*/', '', s)`: every `/*` that is
followed (after the opener) by a `*/` pair is removed together with the
text up to and including the first such pair; a `/*` with no terminator
does not match and stays (re.sub then resumes at the next character). -/
def rbGo : RbState → List Char → List Char
  | .normal, [] => []
  | .normal, '/' :: '*' :: t =>
    if hasTerm t then rbGo .inC t else '/' :: rbGo .normal ('*' :: t)
  | .normal, c :: t => c :: rbGo .normal t
  | .inC, [] => []
  | .inC, '*' :: t => rbGo .inStar t
  | .inC, _ :: t => rbGo .inC t
  | .inStar, [] => []
  | .inStar, '/' :: t => rbGo .normal t
  | .inStar, '*' :: t => rbGo .inStar t
  | .inStar, _ :: t => rbGo .inC t

def removeBlockComments (cs : List Char) : List Char :=
  rbGo .normal cs

/-- `remove_comments`: line comments are removed first, then block
comments (the order of the two `re.sub` calls in the source). -/
def remove_comments (cs : List Char) : List Char :=
  removeBlockComments (removeLineComments cs)

/-! ## remove_whitespace (src/main.py lines 71-87)

`re.sub(r'^\s+|\s+$', '', s)` removes the leading and the trailing
whitespace run (for this pattern the Python `$`-before-final-newline
subtlety changes nothing: the greedy leftmost match always extends the
trailing run to the true end). Then `re.sub(r'\s+', ' ', s)` replaces
every maximal whitespace run by a single space. -/

def ltrim (cs : List Char) : List Char :=
  cs.dropWhile isSpaceC

def rtrim (cs : List Char) : List Char :=
  (cs.reverse.dropWhile isSpaceC).reverse

/-- Whitespace collapsing; the flag is true when the current maximal
whitespace run has already emitted its single `' '`. -/
def coGo : Bool → List Char → List Char
  | _, [] => []
  | false, c :: t => if isSpaceC c then ' ' :: coGo true t else c :: coGo false t
  | true, c :: t => if isSpaceC c then coGo true t else c :: coGo false t

def collapseWs (cs : List Char) : List Char :=
  coGo false cs

def remove_whitespace (cs : List Char) : List Char :=
  collapseWs (rtrim (ltrim cs))

/-! ## Brace scanner (src/main.py lines 301-341)

`find_function_body` / `find_loop_body`: starting just after an opening
brace with `open_braces = 1`, consume characters, adding 1 at `{` and
subtracting 1 at `}`; stop after consuming the character that brings the
count to 0, or at the end of the text.  The consumed characters are
returned (so the balancing `}` itself is part of the returned body). -/

def scanBody : List Char → Nat → List Char
  | _, 0 => []
  | [], _ => []
  | c :: t, Nat.succ n =>
    c :: scanBody t (if c = '\x7b' then n + 2 else if c = '\x7d' then n else n + 1)

def find_function_body (text : List Char) (start_index : Nat) : List Char :=
  scanBody (text.drop start_index) 1

def find_loop_body (text : List Char) (start_index : Nat) : List Char :=
  scanBody (text.drop start_index) 1

/-! ## remove_empty_lines (src/main.py lines 167-179)

`re.sub(r'\n\s*\n', '\n', s)`: a greedy-leftmost match starts at a `\n`
whose following whitespace run contains another `\n`, and extends through
the last `\n` of that run; it is replaced by a single `\n` and scanning
resumes after the match. -/

def nlInRun (t : List Char) : Bool :=
  (t.takeWhile isSpaceC).contains '\n'

def relGo : Bool → List Char → List Char
  | _, [] => []
  | false, c :: t =>
    if c = '\n' then
      (if nlInRun t then relGo true t else c :: relGo false t)
    else c :: relGo false t
  | true, c :: t =>
    if c = '\n' then
      (if nlInRun t then relGo true t else '\n' :: relGo false t)
    else relGo true t

def remove_empty_lines (cs : List Char) : List Char :=
  relGo false cs

/-! ## Pattern matchers

Each embeds one regex of the source at a fixed position: the matcher gets
the character before the position (for `\b`) and the text from the
position on, and returns the length of the (greedy-leftmost) match there
together with the captured groups, or `none`. -/

def isWordOpt : Option Char → Bool
  | some c => isWordC c
  | none => false

def startsWithLit : List Char → List Char → Bool
  | [], _ => true
  | _ :: _, [] => false
  | a :: l, c :: t => a = c && startsWithLit l t

/-- The common tail `\s*\[?\s*(\d*)\s*\]?\s*;` of the declaration
patterns.  Returns the consumed length and the digit group.  Each greedy
step is forced: declining the optional bracket or any greedy repetition
leaves a character that the following atom rejects. -/
def matchTailDecl (r3 : List Char) : Option (Nat × List Char) :=
  let r4 := r3.dropWhile isSpaceC
  let r5 := match r4 with
    | '[' :: t => t
    | _ => r4
  let r6 := r5.dropWhile isSpaceC
  let sz := r6.takeWhile isDigitC
  let r7 := (r6.drop sz.length).dropWhile isSpaceC
  let r8 := match r7 with
    | ']' :: t => t
    | _ => r7
  let r9 := r8.dropWhile isSpaceC
  match r9 with
  | ';' :: rest => some (r3.length - rest.length, sz)
  | _ => none

/-- `\b(\w+)\s+(\w+)\s*\[?\s*(\d*)\s*\]?\s*;` (src/main.py lines 100, 131). -/
def matchVarDecl (prev : Option Char) (cs : List Char) :
    Option (Nat × (List Char × List Char × List Char)) :=
  if isWordOpt prev then none else
  let ty := cs.takeWhile isWordC
  if ty.isEmpty then none else
  let r1 := cs.drop ty.length
  let sp := r1.takeWhile isSpaceC
  if sp.isEmpty then none else
  let r2 := r1.drop sp.length
  let nm := r2.takeWhile isWordC
  if nm.isEmpty then none else
  let r3 := r2.drop nm.length
  match matchTailDecl r3 with
  | some (k, sz) => some (cs.length - r3.length + k, (ty, nm, sz))
  | none => none

/-- `\buniform\s+(\w+)\s+(\w+)\s*\[?\s*(\d*)\s*\]?\s*;` (line 253). -/
def matchUniform (prev : Option Char) (cs : List Char) :
    Option (Nat × (List Char × List Char × List Char)) :=
  if isWordOpt prev then none else
  if startsWithLit ("uniform".toList) cs then
    let r0 := cs.drop 7
    let sp := r0.takeWhile isSpaceC
    if sp.isEmpty then none else
    let r1 := r0.drop sp.length
    let ty := r1.takeWhile isWordC
    if ty.isEmpty then none else
    let r2 := r1.drop ty.length
    let sp2 := r2.takeWhile isSpaceC
    if sp2.isEmpty then none else
    let r3 := r2.drop sp2.length
    let nm := r3.takeWhile isWordC
    if nm.isEmpty then none else
    let r4 := r3.drop nm.length
    match matchTailDecl r4 with
    | some (k, sz) => some (cs.length - r4.length + k, (ty, nm, sz))
    | none => none
  else none

/-- `\b(\w+)\s+(\w+)\s*\([^)]*\)\s*\{` (line 192). -/
def matchFn (prev : Option Char) (cs : List Char) :
    Option (Nat × (List Char × List Char)) :=
  if isWordOpt prev then none else
  let ty := cs.takeWhile isWordC
  if ty.isEmpty then none else
  let r1 := cs.drop ty.length
  let sp := r1.takeWhile isSpaceC
  if sp.isEmpty then none else
  let r2 := r1.drop sp.length
  let nm := r2.takeWhile isWordC
  if nm.isEmpty then none else
  let r3 := (r2.drop nm.length).dropWhile isSpaceC
  match r3 with
  | '(' :: r4 =>
    let args := r4.takeWhile (fun c => !(c = ')'))
    (match r4.drop args.length with
     | ')' :: r5 =>
       (match r5.dropWhile isSpaceC with
        | '\x7b' :: rest => some (cs.length - rest.length, (ty, nm))
        | _ => none)
     | _ => none)
  | _ => none

/-- `\bfor\s*\([^)]*\)\s*\{` (line 223). -/
def matchLoop (prev : Option Char) (cs : List Char) : Option (Nat × Unit) :=
  if isWordOpt prev then none else
  if startsWithLit ("for".toList) cs then
    let r1 := (cs.drop 3).dropWhile isSpaceC
    match r1 with
    | '(' :: r2 =>
      let args := r2.takeWhile (fun c => !(c = ')'))
      (match r2.drop args.length with
       | ')' :: r3 =>
         (match r3.dropWhile isSpaceC with
          | '\x7b' :: rest => some (cs.length - rest.length, ())
          | _ => none)
       | _ => none)
    | _ => none
  else none

/-- `\btexture\([^)]*\)` (line 281). -/
def matchTexture (prev : Option Char) (cs : List Char) : Option (Nat × Unit) :=
  if isWordOpt prev then none else
  if startsWithLit ("texture(".toList) cs then
    let r1 := cs.drop 8
    let args := r1.takeWhile (fun c => !(c = ')'))
    (match r1.drop args.length with
     | ')' :: rest => some (cs.length - rest.length, ())
     | _ => none)
  else none

/-! ## finditer

`re.finditer`: scan positions left to right, attempt the pattern at each
position, record non-overlapping matches and resume directly after each
match.  The `skip` counter implements resuming after a match while
keeping the recursion structural; `prev` carries the previous character
for `\b`.  (None of the embedded patterns can match the empty string —
each ends in a mandatory literal — so the `len = 0` guard is dead code,
kept only to make the definition total without extra hypotheses.) -/

def finditerGo {α : Type} (M : Option Char → List Char → Option (Nat × α)) :
    Nat → Option Char → List Char → Nat → List (Nat × Nat × α)
  | Nat.succ k, _, c :: t, pos => finditerGo M k (some c) t (pos + 1)
  | 0, prev, c :: t, pos =>
    (match M prev (c :: t) with
     | some (len, g) =>
       if len = 0 then finditerGo M 0 (some c) t (pos + 1)
       else (pos, pos + len, g) :: finditerGo M (len - 1) (some c) t (pos + 1)
     | none => finditerGo M 0 (some c) t (pos + 1))
  | _, _, [], _ => []

def finditer {α : Type} (M : Option Char → List Char → Option (Nat × α))
    (text : List Char) : List (Nat × Nat × α) :=
  finditerGo M 0 none text 0

/-! ## remove_redundant_variables (src/main.py lines 89-118)

The `defaultdict(list)` keyed by `f"{var_type} {var_name}"` is an
association list from key to the list of matched texts; each match
appends its text and then emits entry `[0]` of its key. -/

abbrev Groups3 := List Char × List Char × List Char

def declKey (g : Groups3) : List Char :=
  g.1 ++ ' ' :: g.2.1

def assocAppend (d : List (List Char × List (List Char))) (k v : List Char) :
    List (List Char × List (List Char)) :=
  match d with
  | [] => [(k, [v])]
  | (k', l) :: rest =>
    if k' = k then (k', l ++ [v]) :: rest else (k', l) :: assocAppend rest k v

def assocGet (d : List (List Char × List (List Char))) (k : List Char) :
    List (List Char) :=
  match d with
  | [] => []
  | (k', l) :: rest => if k' = k then l else assocGet rest k

def rrvGo (text : List Char) :
    List (Nat × Nat × Groups3) → Nat → List (List Char × List (List Char)) → List Char
  | [], start, _ => text.drop start
  | (s, e, g) :: ms, start, d =>
    let key := declKey g
    let d' := assocAppend d key (slice text s e)
    slice text start s ++ (assocGet d' key).headD [] ++ rrvGo text ms e d'

def remove_redundant_variables (text : List Char) : List Char :=
  rrvGo text (finditer matchVarDecl text) 0 []

/-! ## combine_variable_declarations (src/main.py lines 120-165) -/

def renderDecl (ty nms szs : List Char) : List Char :=
  ty ++ ' ' :: nms ++ szs ++ [';']

def joinNl : List (List Char) → List Char
  | [] => []
  | [d] => d
  | d :: ds => d ++ '\n' :: joinNl ds

def cvdGo (text : List Char) :
    List (Nat × Nat × Groups3) → Nat → List Char → List Char → List Char →
      List (List Char) → List Char
  | [], start, cty, cnms, cszs, decls =>
    let decls' := if cty = [] then decls else decls ++ [renderDecl cty cnms cszs]
    joinNl decls' ++ '\n' :: text.drop start
  | (s, e, (ty, nm, sz)) :: ms, start, cty, cnms, cszs, decls =>
    if cty = [] then
      slice text start s ++ cvdGo text ms e ty nm sz decls
    else if cty = ty then
      slice text start s ++
        cvdGo text ms e cty (cnms ++ ", ".toList ++ nm)
          (if sz = [] then cszs else cszs ++ ", ".toList ++ sz) decls
    else
      slice text start s ++ cvdGo text ms e ty nm sz (decls ++ [renderDecl cty cnms cszs])

def combine_variable_declarations (text : List Char) : List Char :=
  cvdGo text (finditer matchVarDecl text) 0 [] [] [] []

/-! ## inline_functions (src/main.py lines 181-210) -/

def ifnGo (text : List Char) : List (Nat × Nat × (List Char × List Char)) → Nat → List Char
  | [], start => text.drop start
  | (s, e, _) :: ms, start =>
    let body := find_function_body text e
    if body.length < 50 then
      slice text start s ++ body ++ ifnGo text ms (e + body.length + 1)
    else
      slice text start (e + 1) ++ ifnGo text ms (e + 1)

def inline_functions (text : List Char) : List Char :=
  ifnGo text (finditer matchFn text) 0

/-! ## unroll_loops (src/main.py lines 212-240, 343-361) -/

/-- Python `str.replace`: replace every non-overlapping occurrence of
`pat`, left to right, by `repl`; `skip` counts characters of a replaced
occurrence still to be consumed. -/
def strReplaceGo (pat repl : List Char) : Nat → List Char → List Char
  | _, [] => []
  | Nat.succ k, _ :: t => strReplaceGo pat repl k t
  | 0, c :: t =>
    if startsWithLit pat (c :: t) then
      repl ++ strReplaceGo pat repl (pat.length - 1) t
    else c :: strReplaceGo pat repl 0 t

def litLoopHeader : List Char := "for (int i = 0; i < 10; i++)".toList

def unrollRepl : List Char :=
  ("\n        \x7b\n            // Unrolled loop body\n        \x7d\n    ").toList

def unroll_loop (loop_body : List Char) : List Char :=
  strReplaceGo litLoopHeader unrollRepl 0 loop_body

def ulpGo (text : List Char) : List (Nat × Nat × Unit) → Nat → List Char
  | [], start => text.drop start
  | (s, e, _) :: ms, start =>
    let body := find_loop_body text e
    if body.length < 50 then
      slice text start s ++ unroll_loop body ++ ulpGo text ms (e + body.length + 1)
    else
      slice text start (e + 1) ++ ulpGo text ms (e + 1)

def unroll_loops (text : List Char) : List Char :=
  ulpGo text (finditer matchLoop text) 0

/-! ## replace_uniform_variables (src/main.py lines 242-268, 363-380) -/

def get_uniform_value (uniform_name : List Char) : Option (List Char) :=
  if uniform_name = "u_time".toList then some ("0.0".toList)
  else if uniform_name = "u_resolution".toList then some ("vec2(1024.0, 768.0)".toList)
  else none

def uniformRepl (ty nm v : List Char) : List Char :=
  ty ++ ' ' :: nm ++ " = ".toList ++ v ++ [';']

def ruvGo (text : List Char) : List (Nat × Nat × Groups3) → Nat → List Char
  | [], start => text.drop start
  | (s, e, (ty, nm, _)) :: ms, start =>
    match get_uniform_value nm with
    | some v => slice text start s ++ uniformRepl ty nm v ++ ruvGo text ms e
    | none => ruvGo text ms start

def replace_uniform_variables (text : List Char) : List Char :=
  ruvGo text (finditer matchUniform text) 0

/-! ## optimize_texture_lookups (src/main.py lines 270-299, 382-396) -/

def optimize_texture_lookup (texture_call : List Char) : List Char :=
  texture_call

def otlGo (text : List Char) : List (Nat × Nat × Unit) → Nat → List Char
  | [], start => text.drop start
  | (s, e, _) :: ms, start =>
    let call := slice text s e
    let opt := optimize_texture_lookup call
    if opt ≠ call then
      slice text start s ++ opt ++ otlGo text ms e
    else
      slice text start e ++ otlGo text ms e

def optimize_texture_lookups (text : List Char) : List Char :=
  otlGo text (finditer matchTexture text) 0

/-! ## optimize_shader (src/main.py lines 7-51)

The file I/O is out of scope; `optimize_pipeline` is the nine-stage
composition applied to the loaded text, and `optimize_shader_run` models
the rest of the driver on it: it yields the optimized text and the
reported boost percentage, or `none` for the `ZeroDivisionError` raised
when the initial size is zero.  Python `round(x, 2)` (round half to
even) is modelled on exact rationals. -/

def optimize_pipeline (shader_code : List Char) : List Char :=
  optimize_texture_lookups (replace_uniform_variables (unroll_loops (inline_functions
    (remove_empty_lines (combine_variable_declarations (remove_redundant_variables
      (remove_whitespace (remove_comments shader_code))))))))

def roundHalfEven (x : ℚ) : ℤ :=
  let f := ⌊x⌋
  let r := x - f
  if r < 1/2 then f
  else if 1/2 < r then f + 1
  else if Even f then f else f + 1

def round2 (x : ℚ) : ℚ :=
  (roundHalfEven (x * 100) : ℚ) / 100

def optimize_shader_run (shader_code : List Char) : Option (List Char × ℚ) :=
  let optimized_code := optimize_pipeline shader_code
  let initial_size := shader_code.length
  let optimized_size := optimized_code.length
  if initial_size = 0 then none
  else some (optimized_code,
    round2 (100 * ((initial_size : ℚ) - (optimized_size : ℚ)) / (initial_size : ℚ)))

/-! ## Specification-side definitions

These are not part of the program embedding; they are independent
formulations used to state the claims, to be compared with the embedded
program. -/

/-- The match list produced by `finditer` is chained: each match starts
no earlier than `lo`, is nonempty, and the next match starts no earlier
than the previous end. -/
def ChainedFrom {α : Type} : Nat → List (Nat × Nat × α) → Prop
  | _, [] => True
  | lo, (s, e, _) :: ms => lo ≤ s ∧ s < e ∧ ChainedFrom e ms

/-- Brace depth after reading `k` characters, starting from depth `d`. -/
def depthFrom (d : Int) (cs : List Char) (k : Nat) : Int :=
  d + ((cs.take k).count '\x7b' : Int) - ((cs.take k).count '\x7d' : Int)

/-- Only the known-uniform matches of the uniform pattern. -/
def knownUniformMatches (ms : List (Nat × Nat × Groups3)) : List (Nat × Nat × Groups3) :=
  ms.filter (fun m => (get_uniform_value m.2.2.2.1).isSome)

/-- Splice the replacement text of each listed (known) uniform match into
the text, leaving everything outside the listed spans unchanged. -/
def spliceUniforms (text : List Char) : List (Nat × Nat × Groups3) → Nat → List Char
  | [], start => text.drop start
  | (s, e, (ty, nm, _)) :: ks, start =>
    slice text start s ++ uniformRepl ty nm ((get_uniform_value nm).getD []) ++
      spliceUniforms text ks e

/-- Per-match rendering of the uniform stage: a known-name match becomes
`<type> <name> = <value>;`, an unknown-name match is re-emitted as its own
original span; the text between matches is kept. -/
def ruvSpecAll (text : List Char) : List (Nat × Nat × Groups3) → Nat → List Char
  | [], start => text.drop start
  | (s, e, (ty, nm, _)) :: ms, start =>
    slice text start s ++
      (match get_uniform_value nm with
       | some v => uniformRepl ty nm v
       | none => slice text s e) ++ ruvSpecAll text ms e

/-- The replacement text for a match in the dedup stage: the matched text
of the first earlier match with the same `(type, name)` key, or the
match's own text if no earlier match has its key. -/
def firstKeyText (text : List Char) (seen : List (Nat × Nat × Groups3))
    (m : Nat × Nat × Groups3) : List Char :=
  match seen.find? (fun p => declKey p.2.2 = declKey m.2.2) with
  | some p => slice text p.1 p.2.1
  | none => slice text m.1 m.2.1

def dedupSpecGo (text : List Char) :
    List (Nat × Nat × Groups3) → Nat → List (Nat × Nat × Groups3) → List Char
  | [], start, _ => text.drop start
  | m :: ms, start, seen =>
    slice text start m.1 ++ firstKeyText text seen m ++
      dedupSpecGo text ms m.2.1 (seen ++ [m])

def dedupSpec (text : List Char) : List Char :=
  dedupSpecGo text (finditer matchVarDecl text) 0 []

/-- The input segments strictly before each match (the matched spans
themselves removed). -/
def segsBefore (text : List Char) : List (Nat × Nat × Groups3) → Nat → List Char
  | [], _ => []
  | (s, e, _) :: ms, start => slice text start s ++ segsBefore text ms e

/-- Position directly after the last match. -/
def lastEnd {α : Type} : List (Nat × Nat × α) → Nat → Nat
  | [], start => start
  | (_, e, _) :: ms, _ => lastEnd ms e

/-- Maximal runs of adjacent matches with equal type-name. -/
def chunkAdj : List Groups3 → List (List Groups3)
  | [] => []
  | g :: rest =>
    (g :: rest.takeWhile (fun h => h.1 = g.1)) ::
      chunkAdj (rest.dropWhile (fun h => h.1 = g.1))
termination_by gs => gs.length
decreasing_by
  simp only [List.length_cons]
  exact Nat.lt_succ_of_le (List.dropWhile_sublist _).length_le

def namesAfter : List Groups3 → List Char
  | [] => []
  | g :: rest => ", ".toList ++ g.2.1 ++ namesAfter rest

def sizesAfter : List Groups3 → List Char
  | [] => []
  | g :: rest => (if g.2.2 = [] then [] else ", ".toList ++ g.2.2) ++ sizesAfter rest

/-- A group of same-type declarations rendered as one merged declaration
`type name1, name2, ...sizes;`. -/
def renderGroup : List Groups3 → List Char
  | [] => []
  | g :: rest => renderDecl g.1 (g.2.1 ++ namesAfter rest) (g.2.2 ++ sizesAfter rest)

/-- The flushes still to come from the merge stage, given the pending
group state and the remaining match groups (mirrors the state machine of
`combine_variable_declarations`, detached from the text). -/
def pendingFlush : List Char → List Char → List Char → List Groups3 → List (List Char)
  | cty, cnms, cszs, [] =>
    if cty = [] then [] else [renderDecl cty cnms cszs]
  | cty, cnms, cszs, (ty, nm, sz) :: rest =>
    if cty = [] then pendingFlush ty nm sz rest
    else if cty = ty then
      pendingFlush cty (cnms ++ ", ".toList ++ nm)
        (if sz = [] then cszs else cszs ++ ", ".toList ++ sz) rest
    else renderDecl cty cnms cszs :: pendingFlush ty nm sz rest

/-- Adjacent pair `//` somewhere in the list (a line-comment opener). -/
abbrev hasDD (cs : List Char) : Bool :=
  hasAdjPair '/' '/' cs

/-- An opener `/*` somewhere in the list whose remainder contains a
terminator pair `*/` (i.e. a position where the block-comment regex
matches). -/
def hasOT : List Char → Bool
  | a :: b :: t => (a = '/' && b = '*' && hasTerm t) || hasOT (b :: t)
  | _ => false

/-- Text of the block-comment pass from the in-comment state: the suffix
after the first terminator pair `*/`. -/
def afterTerm : List Char → List Char
  | '*' :: '/' :: t => t
  | _ :: t => afterTerm t
  | [] => []

/-- As `afterTerm`, from the state that has already seen a star. -/
def afterTermStar : List Char → List Char
  | '/' :: t => t
  | '*' :: t => afterTermStar t
  | _ :: t => afterTerm t
  | [] => []

/-! ## Spec render of the two body-replacement loops

`inline_functions` and `unroll_loops` run the same loop: a resume
pointer starts at 0; a match whose extracted body is under 50 characters
emits the pending text up to the match start and the replacement of the
body, and resumes one character past the body's end; a match with a
larger body emits the pending text through the opening brace and resumes
right after it.  The pointer a match leaves depends on that match alone,
so the loop renders compositionally: the first match is emitted from
pointer 0, each later match from the pointer its predecessor left, and
the text after the last pointer closes the output. -/

/-- The resume pointer the loop leaves after a match ending at `e`: one
past the body (so past its closing brace and the character after it)
when the body is small, one past the opening brace otherwise. `bodyOf`
is the brace scanner the pass uses. -/
def passNext (text : List Char) (bodyOf : List Char → Nat → List Char) (e : Nat) : Nat :=
  if (bodyOf text e).length < 50 then e + (bodyOf text e).length + 1 else e + 1

/-- What the loop emits for one match `[s, e)` from resume pointer
`start`: the pending (clamped) slice then the replaced small body, or
the pending slice through the opening brace for a large body. -/
def passEmit (text : List Char) (bodyOf : List Char → Nat → List Char)
    (repl : List Char → List Char) (start s e : Nat) : List Char :=
  if (bodyOf text e).length < 50 then slice text start s ++ repl (bodyOf text e)
  else slice text start (e + 1)

/-- Compositional render of a body-replacement pass over a match list:
the first match emitted from pointer 0 is the `start` argument's role;
every later match is emitted from the pointer its predecessor match
alone determines, and the text after the last pointer ends the output. -/
def passSpec {α : Type} (text : List Char) (bodyOf : List Char → Nat → List Char)
    (repl : List Char → List Char) (start : Nat) : List (Nat × Nat × α) → List Char
  | [] => text.drop start
  | m :: rest =>
    passEmit text bodyOf repl start m.1 m.2.1 ++
      (List.map
        (fun p => passEmit text bodyOf repl (passNext text bodyOf p.1.2.1) p.2.1 p.2.2.1)
        ((m :: rest).zip rest)).flatten ++
      text.drop (passNext text bodyOf (lastEnd rest m.2.1))

/-! # Theorems -/

/-! ## Basic slice and chain lemmas -/

theorem drop_eq_drop_drop (text : List Char) {a b : Nat} (h : a ≤ b) :
    text.drop b = (text.drop a).drop (b - a) := by
  rw [List.drop_drop]
  congr 1
  omega

theorem slice_append_drop (text : List Char) {a b : Nat} (h : a ≤ b) :
    slice text a b ++ text.drop b = text.drop a := by
  rw [slice, drop_eq_drop_drop text h, List.take_append_drop]

theorem slice_append_slice (text : List Char) {a b c : Nat} (h1 : a ≤ b) (h2 : b ≤ c) :
    slice text a b ++ slice text b c = slice text a c := by
  unfold slice
  rw [drop_eq_drop_drop text h1, ← List.take_add]
  congr 1
  omega

theorem chainedFrom_mono {α : Type} {ms : List (Nat × Nat × α)} {lo lo' : Nat}
    (h : lo' ≤ lo) (hc : ChainedFrom lo ms) : ChainedFrom lo' ms := by
  cases ms with
  | nil => trivial
  | cons m ms =>
    obtain ⟨s, e, g⟩ := m
    obtain ⟨h1, h2, h3⟩ := hc
    exact ⟨le_trans h h1, h2, h3⟩

theorem finditerGo_chained {α : Type} (M : Option Char → List Char → Option (Nat × α)) :
    ∀ (cs : List Char) (skip : Nat) (prev : Option Char) (pos : Nat),
      ChainedFrom (pos + skip) (finditerGo M skip prev cs pos) := by
  intro cs
  induction cs with
  | nil =>
    intro skip prev pos
    cases skip <;> exact trivial
  | cons c t ih =>
    intro skip prev pos
    match skip with
    | Nat.succ k =>
      have h1 := ih k (some c) (pos + 1)
      have heq : pos + 1 + k = pos + (k + 1) := by omega
      rw [heq] at h1
      exact h1
    | 0 =>
      show ChainedFrom _
        (match M prev (c :: t) with
         | some (len, g) =>
           if len = 0 then finditerGo M 0 (some c) t (pos + 1)
           else (pos, pos + len, g) :: finditerGo M (len - 1) (some c) t (pos + 1)
         | none => finditerGo M 0 (some c) t (pos + 1))
      cases hM : M prev (c :: t) with
      | none =>
        exact chainedFrom_mono (by omega) (ih 0 (some c) (pos + 1))
      | some p =>
        obtain ⟨len, g⟩ := p
        by_cases hl : len = 0
        · simp only [hl, if_pos rfl]
          exact chainedFrom_mono (by omega) (ih 0 (some c) (pos + 1))
        · simp only [if_neg hl]
          refine ⟨by omega, by omega, ?_⟩
          have h1 := ih (len - 1) (some c) (pos + 1)
          have heq : pos + 1 + (len - 1) = pos + len := by omega
          rwa [heq] at h1

theorem finditer_chained {α : Type} (M : Option Char → List Char → Option (Nat × α))
    (text : List Char) : ChainedFrom 0 (finditer M text) := by
  simpa using finditerGo_chained M text 0 none 0

/-! ## C6: division by zero on empty input -/

/-- C6: the claim says `optimize_shader` must not crash on zero-length
input; in the code `boost_percentage = round(100 * (initial_size -
optimized_size) / initial_size, 2)` divides by `initial_size = 0` and
raises `ZeroDivisionError` (modelled as `none`), so the empty input has
no reported result. -/
theorem optimize_shader_empty_input_has_no_result :
    optimize_shader_run ("".toList) = none := by decide

/-! ## C9: end-to-end size claim and percentage formula -/

/-- C9 counterexample: on input `"a"` the pipeline output is `"\na"`
(the declaration-merge stage always appends a newline before the
trailing text), so the output byte length 2 exceeds the input byte
length 1, refuting `length output ≤ length input` for every input. -/
theorem optimize_pipeline_grows_on_single_char :
    optimize_pipeline ("a".toList) = "\na".toList ∧
      ¬ (optimize_pipeline ("a".toList)).length ≤ ("a".toList).length := by decide

/-- C9 (amended): for every input of nonzero length the driver reports
exactly `round(100 * (initial - optimized) / initial, 2)` (round half to
even, on exact rationals) for the pipeline output; the size bound
`length output ≤ length input` of the original claim is dropped (refuted
by `optimize_pipeline_grows_on_single_char`). -/
theorem optimize_shader_percentage_formula (text : List Char) (h : text.length ≠ 0) :
    optimize_shader_run text =
      some (optimize_pipeline text,
        round2 (100 * ((text.length : ℚ) - ((optimize_pipeline text).length : ℚ)) /
          (text.length : ℚ))) := by
  unfold optimize_shader_run
  simp [h]

/-- Witness for `optimize_shader_percentage_formula` at input `"ab"`. -/
theorem optimize_shader_percentage_formula_witness :
    ("ab".toList).length ≠ 0 ∧
    optimize_shader_run ("ab".toList) =
      some (optimize_pipeline ("ab".toList),
        round2 (100 * ((("ab".toList).length : ℚ) -
          ((optimize_pipeline ("ab".toList)).length : ℚ)) / (("ab".toList).length : ℚ))) :=
  ⟨by decide, optimize_shader_percentage_formula ("ab".toList) (by decide)⟩

/-! ## C1 and C10: the uniform-folding stage -/

/-- C1 counterexample: `"uniform float u_unknown;"` is matched by the
uniform pattern and its name is not in the table, yet the output equals
the input — the declaration is kept, not deleted (the claim predicts the
empty output for this input). -/
theorem replace_uniform_unknown_kept :
    finditer matchUniform ("uniform float u_unknown;".toList) =
      [(0, 24, ("float".toList, "u_unknown".toList, ([] : List Char)))] ∧
    get_uniform_value ("u_unknown".toList) = none ∧
    replace_uniform_variables ("uniform float u_unknown;".toList) =
      "uniform float u_unknown;".toList ∧
    "uniform float u_unknown;".toList ≠ ([] : List Char) := by decide

/-- Skipping an unknown match leaves `start` behind; the pending segment
can be split off at any chained point. -/
theorem ruvGo_shift (text : List Char) :
    ∀ (ms : List (Nat × Nat × Groups3)) (start e : Nat), start ≤ e →
      ChainedFrom e ms → ruvGo text ms start = slice text start e ++ ruvGo text ms e := by
  intro ms
  induction ms with
  | nil =>
    intro start e h _
    exact (slice_append_drop text h).symm
  | cons m ms ih =>
    intro start e h hc
    obtain ⟨s, e1, ty, nm, sz⟩ := m
    obtain ⟨hes, hse, hc'⟩ := hc
    cases hv : get_uniform_value nm with
    | some v =>
      simp only [ruvGo, hv]
      rw [← slice_append_slice text h hes]
      simp [List.append_assoc]
    | none =>
      simp only [ruvGo, hv]
      rw [ih start e1 (by omega) hc', ih e e1 (by omega) hc',
        ← List.append_assoc, slice_append_slice text h (by omega)]

theorem ruvGo_eq_ruvSpecAll (text : List Char) :
    ∀ (ms : List (Nat × Nat × Groups3)) (start : Nat), ChainedFrom start ms →
      ruvGo text ms start = ruvSpecAll text ms start := by
  intro ms
  induction ms with
  | nil => intro start _; rfl
  | cons m ms ih =>
    intro start hc
    obtain ⟨s, e1, ty, nm, sz⟩ := m
    obtain ⟨hes, hse, hc'⟩ := hc
    cases hv : get_uniform_value nm with
    | some v =>
      simp only [ruvGo, ruvSpecAll, hv]
      rw [ih e1 hc']
    | none =>
      simp only [ruvGo, ruvSpecAll, hv]
      rw [ruvGo_shift text ms start e1 (by omega) hc', ih e1 hc',
        ← slice_append_slice text hes (le_of_lt hse)]

/-- C1 (amended): for every input text, `replace_uniform_variables`
replaces each matched declaration whose name is in the table by
`<type> <name> = <value>;`, re-emits unchanged (rather than deleting)
each matched declaration whose name is absent, and keeps the text
between matches. -/
theorem replace_uniform_known_folded_unknown_kept (text : List Char) :
    replace_uniform_variables text = ruvSpecAll text (finditer matchUniform text) 0 :=
  ruvGo_eq_ruvSpecAll text (finditer matchUniform text) 0
    (finditer_chained matchUniform text)

theorem ruvGo_eq_splice (text : List Char) :
    ∀ (ms : List (Nat × Nat × Groups3)) (start : Nat),
      ruvGo text ms start = spliceUniforms text (knownUniformMatches ms) start := by
  intro ms
  induction ms with
  | nil => intro start; rfl
  | cons m ms ih =>
    intro start
    obtain ⟨s, e1, ty, nm, sz⟩ := m
    cases hv : get_uniform_value nm with
    | some v =>
      have hk : knownUniformMatches ((s, e1, ty, nm, sz) :: ms) =
          (s, e1, ty, nm, sz) :: knownUniformMatches ms := by
        simp [knownUniformMatches, hv]
      rw [hk]
      simp only [ruvGo, spliceUniforms, hv, Option.getD_some]
      rw [ih]
    | none =>
      have hk : knownUniformMatches ((s, e1, ty, nm, sz) :: ms) = knownUniformMatches ms := by
        simp [knownUniformMatches, hv]
      simp only [ruvGo, hv]
      rw [hk, ih]

/-- C10: the output of `replace_uniform_variables` is the input with
only the spans of known-name uniform matches substituted (by
`<type> <name> = <value>;`); every unknown-name match and every
character outside the known-match spans is left unchanged and in
order. -/
theorem replace_uniform_frame (text : List Char) :
    replace_uniform_variables text =
      spliceUniforms text (knownUniformMatches (finditer matchUniform text)) 0 :=
  ruvGo_eq_splice text (finditer matchUniform text) 0

/-! ## C2: the brace scanner -/

theorem depthFrom_zero (d : Int) (cs : List Char) : depthFrom d cs 0 = d := by
  simp [depthFrom]

theorem depthFrom_step (d : Int) (c : Char) (t : List Char) (k : Nat) :
    depthFrom d (c :: t) (k + 1) =
      depthFrom (if c = '\x7b' then d + 1 else if c = '\x7d' then d - 1 else d) t k := by
  unfold depthFrom
  rw [List.take_succ_cons, List.count_cons, List.count_cons]
  by_cases h1 : c = '\x7b'
  · have : ¬ ('\x7d' = '\x7b') := by decide
    simp [h1, this]
    ring
  · by_cases h2 : c = '\x7d'
    · have : ¬ ('\x7b' = '\x7d') := by decide
      subst h2
      simp [this, h1]
      ring
    · have e1 : ¬ ('\x7b' = c) := fun h => h1 h.symm
      have e2 : ¬ ('\x7d' = c) := fun h => h2 h.symm
      simp [e1, e2, h1, h2]

theorem scanBody_zero (cs : List Char) : scanBody cs 0 = [] := by
  cases cs <;> rfl

/-- One step of the scanner: if the character updates the count from
`n+1` to `m+1`, the specification for the tail lifts to the cons. -/
theorem scanBody_spec_aux (c : Char) (t : List Char) (n m : Nat)
    (harg : (if c = '\x7b' then ((n : Int) + 1) + 1
      else if c = '\x7d' then ((n : Int) + 1) - 1 else (n : Int) + 1) = (m : Int) + 1)
    (hsb : scanBody (c :: t) (n + 1) = c :: scanBody t (m + 1))
    (ihm : (∃ e, e ≤ t.length ∧ depthFrom ((m : Int) + 1) t e = 0 ∧
        (∀ k, k < e → depthFrom ((m : Int) + 1) t k ≠ 0) ∧ scanBody t (m + 1) = t.take e) ∨
      ((∀ k, k ≤ t.length → depthFrom ((m : Int) + 1) t k ≠ 0) ∧ scanBody t (m + 1) = t)) :
    (∃ e, e ≤ (c :: t).length ∧ depthFrom ((n : Int) + 1) (c :: t) e = 0 ∧
        (∀ k, k < e → depthFrom ((n : Int) + 1) (c :: t) k ≠ 0) ∧
        scanBody (c :: t) (n + 1) = (c :: t).take e) ∨
    ((∀ k, k ≤ (c :: t).length → depthFrom ((n : Int) + 1) (c :: t) k ≠ 0) ∧
      scanBody (c :: t) (n + 1) = c :: t) := by
  have hstep : ∀ k, depthFrom ((n : Int) + 1) (c :: t) (k + 1) =
      depthFrom ((m : Int) + 1) t k := by
    intro k
    rw [depthFrom_step, harg]
  have hzero := depthFrom_zero ((n : Int) + 1) (c :: t)
  obtain ⟨e', h1, h2, h3, h4⟩ | ⟨h1, h2⟩ := ihm
  · left
    refine ⟨e' + 1, by simp only [List.length_cons]; omega, ?_, ?_, ?_⟩
    · rw [hstep]
      exact h2
    · intro k hk
      match k with
      | 0 =>
        rw [hzero]
        omega
      | Nat.succ j =>
        rw [hstep]
        exact h3 j (by omega)
    · rw [hsb, List.take_succ_cons, h4]
  · right
    refine ⟨?_, by rw [hsb, h2]⟩
    intro k hk
    match k with
    | 0 =>
      rw [hzero]
      omega
    | Nat.succ j =>
      rw [hstep]
      refine h1 j ?_
      simp only [List.length_cons] at hk
      omega

theorem scanBody_spec : ∀ (cs : List Char) (n : Nat),
    (∃ e, e ≤ cs.length ∧ depthFrom ((n : Int) + 1) cs e = 0 ∧
      (∀ k, k < e → depthFrom ((n : Int) + 1) cs k ≠ 0) ∧ scanBody cs (n + 1) = cs.take e) ∨
    ((∀ k, k ≤ cs.length → depthFrom ((n : Int) + 1) cs k ≠ 0) ∧ scanBody cs (n + 1) = cs) := by
  intro cs
  induction cs with
  | nil =>
    intro n
    right
    refine ⟨?_, rfl⟩
    intro k hk
    have hk0 : k = 0 := by simpa using hk
    subst hk0
    rw [depthFrom_zero]
    omega
  | cons c t ih =>
    intro n
    by_cases hcl : c = '\x7b'
    · refine scanBody_spec_aux c t n (n + 1) ?_ ?_ (ih (n + 1))
      · rw [if_pos hcl]
        push_cast
        ring
      · rw [scanBody, if_pos hcl]
    · by_cases hcr : c = '\x7d'
      · match n with
        | 0 =>
          left
          refine ⟨1, by simp, ?_, ?_, ?_⟩
          · rw [depthFrom_step, if_neg hcl, if_pos hcr, depthFrom_zero]
            norm_num
          · intro k hk
            have hk0 : k = 0 := by omega
            subst hk0
            rw [depthFrom_zero]
            norm_num
          · rw [scanBody, if_neg hcl, if_pos hcr, scanBody_zero, List.take_succ_cons,
              List.take_zero]
        | Nat.succ p =>
          refine scanBody_spec_aux c t (p + 1) p ?_ ?_ (ih p)
          · rw [if_neg hcl, if_pos hcr]
            push_cast
            ring
          · rw [scanBody, if_neg hcl, if_pos hcr]
      · refine scanBody_spec_aux c t n n ?_ ?_ (ih n)
        · rw [if_neg hcl, if_neg hcr]
        · rw [scanBody, if_neg hcl, if_neg hcr]

/-- C2: for every text and offset, the brace scanners
`find_function_body` and `find_loop_body` agree, and they return the
substring from the offset up to (exclusive) the first position where the
brace depth — starting at 1, counting `{` as +1 and `}` as −1 — reaches
0, or the whole remainder of the text if the depth never reaches 0. -/
theorem brace_scanner_spec (text : List Char) (start : Nat) :
    find_loop_body text start = find_function_body text start ∧
    ((∃ e, e ≤ (text.drop start).length ∧ depthFrom 1 (text.drop start) e = 0 ∧
        (∀ k, k < e → depthFrom 1 (text.drop start) k ≠ 0) ∧
        find_function_body text start = (text.drop start).take e) ∨
      ((∀ k, k ≤ (text.drop start).length → depthFrom 1 (text.drop start) k ≠ 0) ∧
        find_function_body text start = text.drop start)) := by
  constructor
  · rfl
  · have h := scanBody_spec (text.drop start) 0
    simpa [find_function_body] using h

/-! ## C3 and C4: the inliner and the unroller -/

/-- C3 counterexample: for `"int f(){a;} x"` the extracted body is
`"a;}"` (the closing brace included), and the output is `"a;}x"`: the
closing brace is kept and the space after the definition is dropped —
not the `"a; x"` the claim predicts (bare body, both braces removed, no
surrounding characters lost). -/
theorem inline_keeps_brace_and_drops_next_char :
    finditer matchFn ("int f()\x7ba;\x7d x".toList) =
      [(0, 8, ("int".toList, "f".toList))] ∧
    find_function_body ("int f()\x7ba;\x7d x".toList) 8 = "a;\x7d".toList ∧
    inline_functions ("int f()\x7ba;\x7d x".toList) = "a;\x7dx".toList ∧
    ("a;\x7dx".toList : List Char) ≠ "a; x".toList := by decide

theorem ifnGo_all_large (text : List Char) :
    ∀ (ms : List (Nat × Nat × (List Char × List Char))) (c start : Nat),
      ChainedFrom c ms → start ≤ c + 1 →
      (∀ m ∈ ms, ¬ (find_function_body text m.2.1).length < 50) →
      ifnGo text ms start = text.drop start := by
  intro ms
  induction ms with
  | nil => intro c start _ _ _; rfl
  | cons m ms ih =>
    intro c start hch hs hbig
    obtain ⟨s, e, g⟩ := m
    obtain ⟨hcs, hse, hch'⟩ := hch
    have hl : ¬ (find_function_body text e).length < 50 :=
      hbig (s, e, g) (List.mem_cons_self _ _)
    simp only [ifnGo, if_neg hl]
    rw [ih e (e + 1) hch' (by omega) (fun m hm => hbig m (List.mem_cons_of_mem _ hm))]
    exact slice_append_drop text (by omega)

theorem passSpec_cons {α : Type} (text : List Char) (bodyOf : List Char → Nat → List Char)
    (repl : List Char → List Char) (start : Nat) (m : Nat × Nat × α)
    (rest : List (Nat × Nat × α)) :
    passSpec text bodyOf repl start (m :: rest) =
      passEmit text bodyOf repl start m.1 m.2.1 ++
        passSpec text bodyOf repl (passNext text bodyOf m.2.1) rest := by
  cases rest with
  | nil => simp [passSpec, lastEnd]
  | cons m1 r =>
    simp only [passSpec, List.zip_cons_cons, List.map_cons, List.flatten, lastEnd]
    simp [List.append_assoc, List.zip]

theorem ifnGo_eq_passSpec (text : List Char) :
    ∀ (ms : List (Nat × Nat × (List Char × List Char))) (start : Nat),
      ifnGo text ms start = passSpec text find_function_body id start ms := by
  intro ms
  induction ms with
  | nil => intro start; rfl
  | cons m rest ih =>
    intro start
    obtain ⟨s, e, g⟩ := m
    rw [passSpec_cons]
    by_cases h : (find_function_body text e).length < 50 <;>
      simp [ifnGo, passEmit, passNext, h, ih, List.append_assoc]

/-- C3 (amended): on every input `inline_functions` is the left-to-right
replacement loop `passSpec` renders, with a resume pointer starting at
0: a matched callable whose extracted body (the balancing closing brace
included) has fewer than 50 characters contributes the pending clamped
slice from the pointer up to the match start followed by that body —
signature and opening brace removed, closing brace retained — and sets
the pointer one past the body's end, dropping the one character directly
after the body; a callable whose body has 50 or more characters
contributes the pending slice through its opening brace and moves the
pointer just past that brace, so when every matched body is large the
text is returned byte-identical.  The pointer a match leaves depends on
that match alone; for nested callables it can lie beyond a later match's
start, whose pending slice is then empty and whose body — already
emitted inside the enclosing body — is emitted a second time, as on
`int f(){int g(){a;}x}` with output `int g(){a;}x}a;}}`. -/
theorem inline_functions_spec :
    (∀ text : List Char,
      inline_functions text =
        passSpec text find_function_body id 0 (finditer matchFn text)) ∧
    (∀ text : List Char,
      (∀ m ∈ finditer matchFn text, ¬ (find_function_body text m.2.1).length < 50) →
      inline_functions text = text) ∧
    inline_functions ("int f()\x7bint g()\x7ba;\x7dx\x7d".toList) =
      "int g()\x7ba;\x7dx\x7da;\x7d\x7d".toList := by
  refine ⟨?_, ?_, ?_⟩
  · intro text
    exact ifnGo_eq_passSpec text (finditer matchFn text) 0
  · intro text hbig
    unfold inline_functions
    simpa using
      ifnGo_all_large text (finditer matchFn text) 0 0
        (finditer_chained matchFn text) (by omega) hbig
  · decide

/-- Witness for `inline_functions_spec`: its render equation applied at
the two-callable input above, and its all-large part at a callable with
a 62 character body, the hypothesis discharged by `decide`. -/
theorem inline_functions_spec_witness :
    inline_functions ("int f()\x7bint g()\x7ba;\x7dx\x7d".toList) =
      passSpec ("int f()\x7bint g()\x7ba;\x7dx\x7d".toList) find_function_body id 0
        (finditer matchFn ("int f()\x7bint g()\x7ba;\x7dx\x7d".toList)) ∧
    inline_functions
      ("int h()\x7bzzzzzzzzzzzzzzzzzzzzzzzzzzzzzzzzzzzzzzzzzzzzzzzzzzzzzzzzzzzz;\x7d".toList) =
      "int h()\x7bzzzzzzzzzzzzzzzzzzzzzzzzzzzzzzzzzzzzzzzzzzzzzzzzzzzzzzzzzzzz;\x7d".toList :=
  ⟨inline_functions_spec.1 _,
   inline_functions_spec.2.1 _ (by decide)⟩

/-- C4 counterexample: the loop `"for (int j = 0; j < 5; j++) { x; }"`
has a header different from the literal `for (int i = 0; i < 10; i++)`
and a body under 50 characters, yet the output differs from the input
(the matched header is deleted and the body spliced), refuting "any
other loop header is left unchanged even with a short body". -/
theorem unroll_other_header_not_unchanged :
    finditer matchLoop ("for (int j = 0; j < 5; j++) \x7b x; \x7d".toList) = [(0, 29, ())] ∧
    (find_loop_body ("for (int j = 0; j < 5; j++) \x7b x; \x7d".toList) 29).length < 50 ∧
    unroll_loops ("for (int j = 0; j < 5; j++) \x7b x; \x7d".toList) ≠
      "for (int j = 0; j < 5; j++) \x7b x; \x7d".toList := by decide

theorem ulpGo_all_large (text : List Char) :
    ∀ (ms : List (Nat × Nat × Unit)) (c start : Nat),
      ChainedFrom c ms → start ≤ c + 1 →
      (∀ m ∈ ms, ¬ (find_loop_body text m.2.1).length < 50) →
      ulpGo text ms start = text.drop start := by
  intro ms
  induction ms with
  | nil => intro c start _ _ _; rfl
  | cons m ms ih =>
    intro c start hch hs hbig
    obtain ⟨s, e, g⟩ := m
    obtain ⟨hcs, hse, hch'⟩ := hch
    have hl : ¬ (find_loop_body text e).length < 50 :=
      hbig (s, e, g) (List.mem_cons_self _ _)
    simp only [ulpGo, if_neg hl]
    rw [ih e (e + 1) hch' (by omega) (fun m hm => hbig m (List.mem_cons_of_mem _ hm))]
    exact slice_append_drop text (by omega)

theorem ulpGo_eq_passSpec (text : List Char) :
    ∀ (ms : List (Nat × Nat × Unit)) (start : Nat),
      ulpGo text ms start = passSpec text find_loop_body unroll_loop start ms := by
  intro ms
  induction ms with
  | nil => intro start; rfl
  | cons m rest ih =>
    intro start
    obtain ⟨s, e, g⟩ := m
    rw [passSpec_cons]
    by_cases h : (find_loop_body text e).length < 50 <;>
      simp [ulpGo, passEmit, passNext, h, ih, List.append_assoc]

/-- C4 (amended): on every input `unroll_loops` is the same left-to-right
replacement loop, rendered by `passSpec` with the loop brace scanner and
`unroll_loop` as the body replacement and a resume pointer starting at
0: a matched loop header whose extracted body (closing brace included)
is under 50 characters contributes the pending clamped slice up to the
match start followed by the body with every occurrence of the exact
literal `for (int i = 0; i < 10; i++)` inside it replaced by the
placeholder block, and sets the pointer one past the body, dropping the
character after it — so every small-body loop, whatever its header text,
loses its header, and no header is ever rewritten in place; a loop whose
body has 50 or more characters contributes the pending slice through its
opening brace and resumes just past it, so when every matched body is
large the text is returned byte-identical.  The pointer a match leaves
depends on that match alone; nested loops make a later match's pending
slice empty and its body text — already emitted inside the outer body —
re-emitted, as on `for (a) {for (b) {x;}y}` with output
`for (b) {x;}y}x;}}`. -/
theorem unroll_loops_spec :
    (∀ text : List Char,
      unroll_loops text =
        passSpec text find_loop_body unroll_loop 0 (finditer matchLoop text)) ∧
    (∀ text : List Char,
      (∀ m ∈ finditer matchLoop text, ¬ (find_loop_body text m.2.1).length < 50) →
      unroll_loops text = text) ∧
    unroll_loops ("for (a) \x7bfor (b) \x7bx;\x7dy\x7d".toList) =
      "for (b) \x7bx;\x7dy\x7dx;\x7d\x7d".toList := by
  refine ⟨?_, ?_, ?_⟩
  · intro text
    exact ulpGo_eq_passSpec text (finditer matchLoop text) 0
  · intro text hbig
    unfold unroll_loops
    simpa using
      ulpGo_all_large text (finditer matchLoop text) 0 0
        (finditer_chained matchLoop text) (by omega) hbig
  · decide

/-- Witness for `unroll_loops_spec`: its render equation applied at the
nested two-loop input above, and its all-large part at a loop with a 62
character body, the hypothesis discharged by `decide`. -/
theorem unroll_loops_spec_witness :
    unroll_loops ("for (a) \x7bfor (b) \x7bx;\x7dy\x7d".toList) =
      passSpec ("for (a) \x7bfor (b) \x7bx;\x7dy\x7d".toList) find_loop_body unroll_loop 0
        (finditer matchLoop ("for (a) \x7bfor (b) \x7bx;\x7dy\x7d".toList)) ∧
    unroll_loops
      ("for (k) \x7bzzzzzzzzzzzzzzzzzzzzzzzzzzzzzzzzzzzzzzzzzzzzzzzzzzzzzzzzzzzz;\x7d".toList) =
      "for (k) \x7bzzzzzzzzzzzzzzzzzzzzzzzzzzzzzzzzzzzzzzzzzzzzzzzzzzzzzzzzzzzz;\x7d".toList :=
  ⟨unroll_loops_spec.1 _,
   unroll_loops_spec.2.1 _ (by decide)⟩

/-! ## C8: the dedup stage -/

theorem find?_eq_head?_filter {α : Type} (p : α → Bool) (l : List α) :
    l.find? p = (l.filter p).head? := by
  induction l with
  | nil => rfl
  | cons a t ih =>
    cases hpa : p a
    · rw [List.find?_cons_of_neg _ (by simp [hpa]),
        List.filter_cons_of_neg (by simp [hpa]), ih]
    · rw [List.find?_cons_of_pos _ hpa, List.filter_cons_of_pos hpa]
      rfl

theorem assocGet_assocAppend (d : List (List Char × List (List Char))) (k v q : List Char) :
    assocGet (assocAppend d k v) q =
      if q = k then assocGet d k ++ [v] else assocGet d q := by
  induction d with
  | nil =>
    by_cases h : q = k
    · subst h
      simp [assocAppend, assocGet]
    · have h' : ¬ k = q := fun hh => h hh.symm
      simp [assocAppend, assocGet, h, h']
  | cons p rest ih =>
    obtain ⟨k1, l⟩ := p
    by_cases h1 : k1 = k
    · subst h1
      by_cases h : q = k1
      · subst h
        simp [assocAppend, assocGet]
      · have h' : ¬ k1 = q := fun hh => h hh.symm
        simp [assocAppend, assocGet, h, h']
    · by_cases h : q = k1
      · subst h
        have h2 : ¬ q = k := h1
        simp [assocAppend, assocGet, h1, h2]
      · have h' : ¬ k1 = q := fun hh => h hh.symm
        simp [assocAppend, assocGet, h1, h', ih]

theorem rrvGo_eq_dedupSpecGo (text : List Char) :
    ∀ (ms : List (Nat × Nat × Groups3)) (start : Nat)
      (seen : List (Nat × Nat × Groups3)) (d : List (List Char × List (List Char))),
      (∀ q, assocGet d q =
        (seen.filter (fun p => declKey p.2.2 = q)).map (fun p => slice text p.1 p.2.1)) →
      rrvGo text ms start d = dedupSpecGo text ms start seen := by
  intro ms
  induction ms with
  | nil => intro start seen d _; rfl
  | cons m ms ih =>
    intro start seen d hinv
    obtain ⟨s, e, g⟩ := m
    simp only [rrvGo, dedupSpecGo]
    have hget : assocGet (assocAppend d (declKey g) (slice text s e)) (declKey g) =
        (seen.filter (fun p => declKey p.2.2 = declKey g)).map
          (fun p => slice text p.1 p.2.1) ++ [slice text s e] := by
      rw [assocGet_assocAppend, if_pos rfl, hinv]
    have hhead : (assocGet (assocAppend d (declKey g) (slice text s e))
        (declKey g)).headD [] = firstKeyText text seen (s, e, g) := by
      rw [hget]
      unfold firstKeyText
      dsimp only
      rw [find?_eq_head?_filter]
      cases hfil : seen.filter (fun p => declKey p.2.2 = declKey g) with
      | nil => rfl
      | cons p rest => rfl
    rw [hhead]
    congr 1
    refine ih e (seen ++ [(s, e, g)]) _ ?_
    intro q
    rw [assocGet_assocAppend, List.filter_append, List.map_append]
    by_cases hq : q = declKey g
    · subst hq
      rw [if_pos rfl, hinv]
      congr 1
      rw [List.filter_cons_of_pos (by simp), List.filter_nil]
      rfl
    · have hq' : ¬ (declKey g = q) := fun hh => hq hh.symm
      rw [if_neg hq, hinv]
      rw [List.filter_cons_of_neg (by simpa using hq'), List.filter_nil]
      simp

/-- C8: for every input text, `remove_redundant_variables` emits the
first declaration matched for each `(type, name)` key with its text
unchanged, and replaces every later declaration matched with the same
key by a copy of the first occurrence's matched text (not deleting it),
leaving all text between matches in place; in particular
`"int a; int a; float b;"` is reproduced verbatim (the duplicate is
overwritten with the identical first text), and a differing duplicate is
overwritten by the first text (`"int a[3]; int  a; float b;"` becomes
`"int a[3]; int a[3]; float b;"`). -/
theorem remove_redundant_spec :
    (∀ text : List Char, remove_redundant_variables text = dedupSpec text) ∧
    remove_redundant_variables ("int a; int a; float b;".toList) =
      "int a; int a; float b;".toList ∧
    remove_redundant_variables ("int a[3]; int  a; float b;".toList) =
      "int a[3]; int a[3]; float b;".toList := by
  refine ⟨?_, by decide, by decide⟩
  intro text
  exact rrvGo_eq_dedupSpecGo text (finditer matchVarDecl text) 0 [] []
    (fun q => by simp [assocGet])

/-! ## C5: the merge stage -/

/-- C5 counterexample: in `"int a; X int b;"` the text `" X "` lies
strictly between the two declaration matches (spans `[0,6)` and
`[9,15)`), and the claim says such text is dropped and does not appear
in the output; but the output is `" X int a, b;\n"`, which contains
`'X'` (the inter-match text is emitted before the merged block, not
dropped). -/
theorem combine_keeps_between_text :
    finditer matchVarDecl ("int a; X int b;".toList) =
      [(0, 6, ("int".toList, "a".toList, ([] : List Char))),
       (9, 15, ("int".toList, "b".toList, ([] : List Char)))] ∧
    combine_variable_declarations ("int a; X int b;".toList) = " X int a, b;\n".toList ∧
    'X' ∈ combine_variable_declarations ("int a; X int b;".toList) := by decide

theorem cvdGo_render (text : List Char) :
    ∀ (ms : List (Nat × Nat × Groups3)) (start : Nat) (cty cnms cszs : List Char)
      (decls : List (List Char)),
      cvdGo text ms start cty cnms cszs decls =
        segsBefore text ms start ++
          joinNl (decls ++ pendingFlush cty cnms cszs (ms.map (fun m => m.2.2))) ++
          '\n' :: text.drop (lastEnd ms start) := by
  intro ms
  induction ms with
  | nil =>
    intro start cty cnms cszs decls
    by_cases hc : cty = []
    · simp only [cvdGo, pendingFlush, if_pos hc, List.map_nil, segsBefore, lastEnd,
        List.append_nil, List.nil_append]
    · simp only [cvdGo, pendingFlush, if_neg hc, List.map_nil, segsBefore, lastEnd,
        List.nil_append]
  | cons m ms ih =>
    intro start cty cnms cszs decls
    obtain ⟨s, e, ty, nm, sz⟩ := m
    by_cases hc : cty = []
    · simp only [cvdGo, pendingFlush, if_pos hc, List.map_cons, segsBefore, lastEnd]
      rw [ih]
      simp [List.append_assoc]
    · by_cases ht : cty = ty
      · simp only [cvdGo, pendingFlush, if_neg hc, if_pos ht, List.map_cons,
          segsBefore, lastEnd]
        rw [ih]
        simp [List.append_assoc]
      · simp only [cvdGo, pendingFlush, if_neg hc, if_neg ht, List.map_cons,
          segsBefore, lastEnd]
        rw [ih]
        have hl : (decls ++ [renderDecl cty cnms cszs]) ++
            pendingFlush ty nm sz (ms.map (fun m => m.2.2)) =
            decls ++ (renderDecl cty cnms cszs ::
              pendingFlush ty nm sz (ms.map (fun m => m.2.2))) := by
          rw [List.append_assoc, List.singleton_append]
        rw [hl]
        simp [List.append_assoc]

theorem pendingFlush_mid :
    ∀ (gs : List Groups3) (ty nms szs : List Char),
      ty ≠ [] → (∀ g ∈ gs, g.1 ≠ []) →
      pendingFlush ty nms szs gs =
        renderDecl ty (nms ++ namesAfter (gs.takeWhile (fun h => h.1 = ty)))
            (szs ++ sizesAfter (gs.takeWhile (fun h => h.1 = ty))) ::
          (chunkAdj (gs.dropWhile (fun h => h.1 = ty))).map renderGroup := by
  intro gs
  induction gs with
  | nil =>
    intro ty nms szs hty _
    simp [pendingFlush, hty, chunkAdj, namesAfter, sizesAfter]
  | cons g gs ih =>
    intro ty nms szs hty hne
    obtain ⟨ty1, nm1, sz1⟩ := g
    by_cases ht : ty = ty1
    · subst ht
      have htw : (((ty, nm1, sz1) :: gs).takeWhile (fun h => h.1 = ty)) =
          (ty, nm1, sz1) :: gs.takeWhile (fun h => h.1 = ty) := by
        rw [List.takeWhile_cons_of_pos]
        simp
      have hdw : (((ty, nm1, sz1) :: gs).dropWhile (fun h => h.1 = ty)) =
          gs.dropWhile (fun h => h.1 = ty) := by
        rw [List.dropWhile_cons_of_pos]
        simp
      rw [htw, hdw]
      simp only [pendingFlush, if_neg hty, if_pos rfl]
      rw [ih ty (nms ++ ", ".toList ++ nm1)
        (if sz1 = [] then szs else szs ++ ", ".toList ++ sz1) hty
        (fun g hg => hne g (List.mem_cons_of_mem _ hg))]
      by_cases hsz : sz1 = [] <;>
        simp [renderDecl, namesAfter, sizesAfter, hsz, List.append_assoc]
    · have ht' : ¬ (ty1 = ty) := fun hh => ht (hh.symm)
      have htw : (((ty1, nm1, sz1) :: gs).takeWhile (fun h => h.1 = ty)) = [] := by
        rw [List.takeWhile_cons_of_neg]
        simp [ht']
      have hdw : (((ty1, nm1, sz1) :: gs).dropWhile (fun h => h.1 = ty)) =
          (ty1, nm1, sz1) :: gs := by
        rw [List.dropWhile_cons_of_neg]
        simp [ht']
      rw [htw, hdw]
      have h1 : ty1 ≠ [] := hne (ty1, nm1, sz1) (List.mem_cons_self _ _)
      simp only [pendingFlush, if_neg hty, if_neg ht]
      rw [ih ty1 nm1 sz1 h1 (fun g hg => hne g (List.mem_cons_of_mem _ hg))]
      rw [chunkAdj]
      simp [renderGroup, namesAfter, sizesAfter, renderDecl]

theorem pendingFlush_chunks (gs : List Groups3) (hne : ∀ g ∈ gs, g.1 ≠ []) :
    pendingFlush [] [] [] gs = (chunkAdj gs).map renderGroup := by
  cases gs with
  | nil => simp [pendingFlush, chunkAdj]
  | cons g gs =>
    obtain ⟨ty1, nm1, sz1⟩ := g
    have h1 : ty1 ≠ [] := hne (ty1, nm1, sz1) (List.mem_cons_self _ _)
    simp only [pendingFlush, if_pos rfl]
    rw [pendingFlush_mid gs ty1 nm1 sz1 h1 (fun g hg => hne g (List.mem_cons_of_mem _ hg))]
    rw [chunkAdj]
    simp [renderGroup, namesAfter, sizesAfter, renderDecl]

theorem finditerGo_zero_cons {α : Type} (M : Option Char → List Char → Option (Nat × α))
    (prev : Option Char) (c : Char) (t : List Char) (pos : Nat) :
    finditerGo M 0 prev (c :: t) pos =
      match M prev (c :: t) with
      | some (len, g) =>
        if len = 0 then finditerGo M 0 (some c) t (pos + 1)
        else (pos, pos + len, g) :: finditerGo M (len - 1) (some c) t (pos + 1)
      | none => finditerGo M 0 (some c) t (pos + 1) := rfl

theorem finditerGo_from_matcher {α : Type} (M : Option Char → List Char → Option (Nat × α)) :
    ∀ (cs : List Char) (skip : Nat) (prev : Option Char) (pos : Nat) (m : Nat × Nat × α),
      m ∈ finditerGo M skip prev cs pos → ∃ p c len, M p c = some (len, m.2.2) := by
  intro cs
  induction cs with
  | nil =>
    intro skip prev pos m hm
    cases skip <;> simp [finditerGo] at hm
  | cons c t ih =>
    intro skip prev pos m hm
    match skip with
    | Nat.succ k => exact ih k (some c) (pos + 1) m hm
    | 0 =>
      cases hM : M prev (c :: t) with
      | none =>
        simp only [finditerGo_zero_cons, hM] at hm
        exact ih 0 (some c) (pos + 1) m hm
      | some q =>
        obtain ⟨len, g⟩ := q
        simp only [finditerGo_zero_cons, hM] at hm
        by_cases hl : len = 0
        · rw [if_pos hl] at hm
          exact ih 0 (some c) (pos + 1) m hm
        · rw [if_neg hl] at hm
          rcases List.mem_cons.mp hm with hh | hh
          · subst hh
            exact ⟨prev, c :: t, len, hM⟩
          · exact ih (len - 1) (some c) (pos + 1) m hh

theorem matchVarDecl_ty_nonempty {prev : Option Char} {cs : List Char} {len : Nat}
    {g : Groups3} (h : matchVarDecl prev cs = some (len, g)) : g.1 ≠ [] := by
  unfold matchVarDecl at h
  dsimp only at h
  split at h
  · cases h
  · split at h
    · cases h
    · rename_i hty
      split at h
      · cases h
      · split at h
        · cases h
        · split at h
          · rename_i k sz hmt
            injection h with h'
            injection h' with hlen hg
            have hgg : g = (List.takeWhile isWordC cs, _, sz) := hg.symm
            subst hgg
            intro hnil
            exact hty (by rw [show List.takeWhile isWordC cs = [] from hnil]; rfl)
          · cases h

theorem finditer_var_types_nonempty (text : List Char) :
    ∀ m ∈ finditer matchVarDecl text, m.2.2.1 ≠ [] := by
  intro m hm
  obtain ⟨p, c, len, hM⟩ := finditerGo_from_matcher matchVarDecl text 0 none 0 m hm
  exact matchVarDecl_ty_nonempty hM

/-- C5 (amended): `combine_variable_declarations` accumulates adjacent
same-type declaration matches, flushes each maximal group as
`type name1, name2, ...;` (array-size fragments appended verbatim, the
first group member's size always, later members' sizes only when
nonempty) on a type change and at end of input; the output is the
concatenation of the input segments before each match (the matched
spans removed), then the flushed declarations joined by newlines, then a
newline, then the text after the last match — the inter-match text is
thus kept (in front of the block), not dropped. -/
theorem combine_decls_spec (text : List Char) :
    combine_variable_declarations text =
      segsBefore text (finditer matchVarDecl text) 0 ++
        joinNl ((chunkAdj ((finditer matchVarDecl text).map (fun m => m.2.2))).map
          renderGroup) ++
        '\n' :: text.drop (lastEnd (finditer matchVarDecl text) 0) := by
  unfold combine_variable_declarations
  rw [cvdGo_render]
  rw [pendingFlush_chunks _ ?hne]
  · simp
  case hne =>
    intro g hg
    obtain ⟨m, hm, hgm⟩ := List.mem_map.mp hg
    have := finditer_var_types_nonempty text m hm
    simpa [← hgm] using this

/-! ## C7: idempotence of the lexical stripper

The proof shows that the output of `remove_whitespace ∘ remove_comments`
contains no line-comment opener `//` and no block-comment opener `/*`
followed by a terminator `*/`, so the second comment removal is the
identity, and that its whitespace is already normalized, so the second
whitespace pass is the identity too. -/

theorem adj_cons_false_iff (x y a : Char) (l : List Char) :
    hasAdjPair x y (a :: l) = false ↔
      ¬(a = x ∧ l.head? = some y) ∧ hasAdjPair x y l = false := by
  cases l with
  | nil => simp [hasAdjPair]
  | cons b t =>
    simp only [hasAdjPair, Bool.or_eq_false_iff, Bool.and_eq_false_iff,
      List.head?_cons, Option.some.injEq]
    constructor
    · rintro ⟨h1, h2⟩
      refine ⟨?_, h2⟩
      rintro ⟨ha, hb⟩
      rcases h1 with h1 | h1 <;> simp_all
    · rintro ⟨h1, h2⟩
      refine ⟨?_, h2⟩
      by_cases ha : a = x
      · right
        simp only [decide_eq_false_iff_not]
        exact fun hb => h1 ⟨ha, hb⟩
      · left
        simpa using ha

theorem adj_tail_false {x y a : Char} {l : List Char}
    (h : hasAdjPair x y (a :: l) = false) : hasAdjPair x y l = false :=
  ((adj_cons_false_iff x y a l).mp h).2

theorem adj_append_false_right {x y : Char} {l r : List Char}
    (h : hasAdjPair x y (l ++ r) = false) : hasAdjPair x y r = false := by
  induction l with
  | nil => simpa using h
  | cons a l ih => exact ih (adj_tail_false (by simpa using h))

theorem adj_append_false_left {x y : Char} {l r : List Char}
    (h : hasAdjPair x y (l ++ r) = false) : hasAdjPair x y l = false := by
  induction l with
  | nil => rfl
  | cons a l ih =>
    rw [List.cons_append] at h
    obtain ⟨h1, h2⟩ := (adj_cons_false_iff _ _ _ _).mp h
    refine (adj_cons_false_iff _ _ _ _).mpr ⟨?_, ih h2⟩
    rintro ⟨ha, hh⟩
    refine h1 ⟨ha, ?_⟩
    cases l with
    | nil => simp at hh
    | cons b t => simpa using hh

theorem rlGo_cons_ne {c : Char} {t : List Char}
    (h : ¬(c = '/' ∧ t.head? = some '/')) :
    rlGo false (c :: t) = c :: rlGo false t := by
  rw [rlGo.eq_def]
  split <;> simp_all

theorem rlGo_id {cs : List Char} (h : hasDD cs = false) : rlGo false cs = cs := by
  induction cs with
  | nil => rfl
  | cons c t ih =>
    have h' := (adj_cons_false_iff '/' '/' c t).mp h
    rw [rlGo_cons_ne h'.1, ih h'.2]

theorem rlGo_true_head {cs : List Char} {h : Char}
    (hh : (rlGo true cs).head? = some h) : h = '\n' := by
  induction cs with
  | nil => simp [rlGo] at hh
  | cons c t ih =>
    by_cases hc : c = '\n'
    · subst hc
      have he : rlGo true ('\n' :: t) = '\n' :: rlGo false t := by simp [rlGo]
      rw [he] at hh
      simp at hh
      exact hh.symm
    · have he : rlGo true (c :: t) = rlGo true t := by simp [rlGo, hc]
      rw [he] at hh
      exact ih hh

theorem rlGo_false_head {cs : List Char} {h : Char}
    (hh : (rlGo false cs).head? = some h) : h = '\n' ∨ cs.head? = some h := by
  cases cs with
  | nil => simp [rlGo] at hh
  | cons c t =>
    by_cases hc : c = '/' ∧ t.head? = some '/'
    · obtain ⟨rfl, ht⟩ := hc
      cases t with
      | nil => simp at ht
      | cons d t' =>
        simp at ht
        subst ht
        have he : rlGo false ('/' :: '/' :: t') = rlGo true t' := by simp [rlGo]
        rw [he] at hh
        exact Or.inl (rlGo_true_head hh)
    · rw [rlGo_cons_ne hc] at hh
      simp at hh
      exact Or.inr (by simp [hh])

theorem rlGo_no_dd : ∀ (cs : List Char) (flag : Bool), hasDD (rlGo flag cs) = false := by
  intro cs
  induction cs with
  | nil => intro flag; cases flag <;> rfl
  | cons c t ih =>
    intro flag
    cases flag
    · by_cases hc : c = '/' ∧ t.head? = some '/'
      · obtain ⟨rfl, ht⟩ := hc
        cases t with
        | nil => simp at ht
        | cons d t' =>
          simp at ht
          subst ht
          have he : rlGo false ('/' :: '/' :: t') = rlGo true t' := by simp [rlGo]
          have he2 : rlGo true ('/' :: t') = rlGo true t' := by simp [rlGo]
          rw [he, ← he2]
          exact ih true
      · rw [rlGo_cons_ne hc]
        refine (adj_cons_false_iff _ _ _ _).mpr ⟨?_, ih false⟩
        rintro ⟨hcs, hhead⟩
        rcases rlGo_false_head hhead with hnl | hth
        · exact absurd hnl (by decide)
        · exact hc ⟨hcs, hth⟩
    · by_cases hc : c = '\n'
      · subst hc
        have he : rlGo true ('\n' :: t) = '\n' :: rlGo false t := by simp [rlGo]
        rw [he]
        refine (adj_cons_false_iff _ _ _ _).mpr ⟨?_, ih false⟩
        rintro ⟨h1, _⟩
        exact absurd h1 (by decide)
      · have he : rlGo true (c :: t) = rlGo true t := by simp [rlGo, hc]
        rw [he]
        exact ih true

theorem hasOT_cons_false_iff (a : Char) (l : List Char) :
    hasOT (a :: l) = false ↔
      ¬(a = '/' ∧ l.head? = some '*' ∧ hasTerm l.tail = true) ∧ hasOT l = false := by
  cases l with
  | nil =>
    constructor
    · intro _
      refine ⟨?_, rfl⟩
      rintro ⟨_, hh, _⟩
      simp at hh
    · intro _
      rfl
  | cons b t =>
    simp only [hasOT, Bool.or_eq_false_iff, Bool.and_eq_false_iff,
      List.head?_cons, Option.some.injEq, List.tail_cons]
    constructor
    · rintro ⟨h1, h2⟩
      refine ⟨?_, h2⟩
      rintro ⟨ha, hb, ht⟩
      rcases h1 with (h1 | h1) | h1 <;> simp_all
    · rintro ⟨h1, h2⟩
      refine ⟨?_, h2⟩
      by_cases ha : a = '/' <;> by_cases hb : b = '*' <;>
        by_cases ht : hasTerm t = true <;> simp_all

theorem hasOT_tail_false {a : Char} {l : List Char}
    (h : hasOT (a :: l) = false) : hasOT l = false :=
  ((hasOT_cons_false_iff a l).mp h).2

theorem hasTerm_false_hasOT_false {cs : List Char} (h : hasTerm cs = false) :
    hasOT cs = false := by
  induction cs with
  | nil => rfl
  | cons a l ih =>
    refine (hasOT_cons_false_iff _ _).mpr ⟨?_, ih (adj_tail_false h)⟩
    rintro ⟨ha, hb, ht⟩
    cases l with
    | nil => simp at hb
    | cons b t =>
      have h2 : hasTerm (b :: t) = false := adj_tail_false h
      have h3 : hasTerm t = false := adj_tail_false h2
      simp only [List.tail_cons] at ht
      rw [ht] at h3
      cases h3

theorem rbGo_normal_opener (t : List Char) :
    rbGo .normal ('/' :: '*' :: t) =
      if hasTerm t then rbGo .inC t else '/' :: rbGo .normal ('*' :: t) := rfl

theorem rbGo_normal_cons_ne {c : Char} {t : List Char}
    (h : ¬(c = '/' ∧ t.head? = some '*')) :
    rbGo .normal (c :: t) = c :: rbGo .normal t := by
  rw [rbGo.eq_def]
  split <;> simp_all

theorem rbGo_normal_id {cs : List Char} (h : hasTerm cs = false) :
    rbGo .normal cs = cs := by
  induction cs with
  | nil => rfl
  | cons c t ih =>
    by_cases hc : c = '/' ∧ t.head? = some '*'
    · obtain ⟨rfl, ht⟩ := hc
      cases t with
      | nil => simp at ht
      | cons d t' =>
        simp at ht
        subst ht
        have h1 : hasTerm ('*' :: t') = false := adj_tail_false h
        have h2 : hasTerm t' = false := adj_tail_false h1
        rw [rbGo_normal_opener, if_neg (by simp [h2])]
        rw [ih h1]
    · rw [rbGo_normal_cons_ne hc, ih (adj_tail_false h)]

theorem aTS_other {c : Char} {t : List Char} (h1 : ¬ c = '/') (h2 : ¬ c = '*') :
    afterTermStar (c :: t) = afterTerm t := by
  rw [afterTermStar.eq_def]
  split <;> simp_all

theorem aT_cons {c : Char} {t : List Char} (h : ¬(c = '*' ∧ t.head? = some '/')) :
    afterTerm (c :: t) = afterTerm t := by
  rw [afterTerm.eq_def]
  split <;> simp_all

theorem afterTermStar_eq_afterTerm :
    ∀ (t : List Char) (c : Char), c ≠ '/' → afterTermStar (c :: t) = afterTerm (c :: t) := by
  intro t
  induction t with
  | nil =>
    intro c hc
    by_cases hs : c = '*'
    · subst hs
      rfl
    · rw [aTS_other hc hs, aT_cons (by simp)]
  | cons d w ih =>
    intro c hc
    by_cases hs : c = '*'
    · subst hs
      by_cases hd : d = '/'
      · subst hd
        rfl
      · have e1 : afterTermStar ('*' :: d :: w) = afterTermStar (d :: w) := rfl
        rw [e1, ih d hd]
        exact (aT_cons (by simp [hd])).symm
    · rw [aTS_other hc hs]
      exact (aT_cons (by simp [hs])).symm

theorem rbGo_inC_eq : ∀ (cs : List Char),
    rbGo .inC cs = rbGo .normal (afterTerm cs) ∧
    rbGo .inStar cs = rbGo .normal (afterTermStar cs) := by
  intro cs
  induction cs with
  | nil => exact ⟨rfl, rfl⟩
  | cons c t ih =>
    constructor
    · by_cases hc : c = '*'
      · subst hc
        have e1 : rbGo .inC ('*' :: t) = rbGo .inStar t := rfl
        rw [e1, (ih).2]
        congr 1
        cases t with
        | nil => rfl
        | cons d w =>
          by_cases hd : d = '/'
          · subst hd
            rfl
          · rw [afterTermStar_eq_afterTerm w d hd]
            exact (aT_cons (by simp [hd])).symm
      · have e1 : rbGo .inC (c :: t) = rbGo .inC t := by
          rw [rbGo.eq_def]
          split <;> simp_all
        rw [e1, (ih).1]
        congr 1
        exact (aT_cons (by simp [hc])).symm
    · by_cases h1 : c = '/'
      · subst h1
        rfl
      · by_cases h2 : c = '*'
        · subst h2
          have e1 : rbGo .inStar ('*' :: t) = rbGo .inStar t := rfl
          rw [e1, (ih).2]
          rfl
        · have e1 : rbGo .inStar (c :: t) = rbGo .inC t := by
            rw [rbGo.eq_def]
            split <;> simp_all
          rw [e1, (ih).1]
          congr 1
          exact (aTS_other h1 h2).symm

theorem afterTerm_suffix : ∀ (cs : List Char), ∃ l, cs = l ++ afterTerm cs := by
  intro cs
  induction cs with
  | nil => exact ⟨[], rfl⟩
  | cons c t ih =>
    by_cases hc : c = '*' ∧ t.head? = some '/'
    · obtain ⟨rfl, ht⟩ := hc
      cases t with
      | nil => simp at ht
      | cons d w =>
        simp at ht
        subst ht
        exact ⟨['*', '/'], rfl⟩
    · rw [aT_cons hc]
      obtain ⟨l, hl⟩ := ih
      exact ⟨c :: l, by rw [List.cons_append, ← hl]⟩

theorem afterTerm_length_le (cs : List Char) : (afterTerm cs).length ≤ cs.length := by
  obtain ⟨l, hl⟩ := afterTerm_suffix cs
  have hlen := congrArg List.length hl
  simp only [List.length_append] at hlen
  omega

theorem rbGo_normal_head {cs : List Char}
    (h : ¬(cs.head? = some '/' ∧ cs.tail.head? = some '*' ∧ hasTerm cs.tail.tail = true)) :
    (rbGo .normal cs).head? = cs.head? := by
  match cs with
  | [] => rfl
  | [c] =>
    rw [rbGo_normal_cons_ne (by simp)]
    rfl
  | c :: d :: t =>
    by_cases hc : c = '/' ∧ d = '*'
    · obtain ⟨rfl, rfl⟩ := hc
      have hterm : hasTerm t = false := by
        by_contra hX
        exact h ⟨rfl, rfl, by simpa using hX⟩
      rw [rbGo_normal_opener, if_neg (by simp [hterm])]
      rfl
    · have h2 : ¬(c = '/' ∧ (d :: t).head? = some '*') := by simpa using hc
      rw [rbGo_normal_cons_ne h2]
      rfl

theorem rbGo_normal_no_comment : ∀ (n : Nat) (cs : List Char), cs.length ≤ n →
    hasDD cs = false →
    hasDD (rbGo .normal cs) = false ∧ hasOT (rbGo .normal cs) = false := by
  intro n
  induction n with
  | zero =>
    intro cs hlen _
    have h0 : cs = [] := List.length_eq_zero.mp (Nat.le_zero.mp hlen)
    subst h0
    exact ⟨rfl, rfl⟩
  | succ n ih =>
    intro cs hlen hdd
    match cs with
    | [] => exact ⟨rfl, rfl⟩
    | c :: t =>
      by_cases hop : c = '/' ∧ t.head? = some '*'
      · obtain ⟨rfl, hh⟩ := hop
        cases t with
        | nil => simp at hh
        | cons d w =>
          simp at hh
          subst hh
          by_cases hterm : hasTerm w = true
          · rw [rbGo_normal_opener, if_pos hterm, (rbGo_inC_eq w).1]
            have hddw : hasDD w = false := adj_tail_false (adj_tail_false hdd)
            obtain ⟨l, hl⟩ := afterTerm_suffix w
            have hdda : hasDD (afterTerm w) = false :=
              adj_append_false_right (x := '/') (y := '/') (by rw [← hl]; exact hddw)
            refine ih (afterTerm w) ?_ hdda
            have h1 := afterTerm_length_le w
            simp only [List.length_cons] at hlen
            omega
          · have hterm' : hasTerm w = false := by simpa using hterm
            rw [rbGo_normal_opener, if_neg (by simp [hterm'])]
            have e1 : rbGo .normal ('*' :: w) = '*' :: rbGo .normal w :=
              rbGo_normal_cons_ne (by simp)
            rw [e1, rbGo_normal_id hterm']
            refine ⟨hdd, ?_⟩
            refine (hasOT_cons_false_iff _ _).mpr ⟨?_, ?_⟩
            · rintro ⟨_, _, ht⟩
              simp only [List.tail_cons] at ht
              rw [ht] at hterm'
              cases hterm'
            · refine (hasOT_cons_false_iff _ _).mpr ⟨?_, hasTerm_false_hasOT_false hterm'⟩
              rintro ⟨hstar, _⟩
              exact absurd hstar (by decide)
      · have e1 := rbGo_normal_cons_ne hop
        rw [e1]
        have hddt : hasDD t = false := adj_tail_false hdd
        have hlent : t.length ≤ n := by
          simp only [List.length_cons] at hlen
          omega
        obtain ⟨hD, hO⟩ := ih t hlent hddt
        constructor
        · refine (adj_cons_false_iff _ _ _ _).mpr ⟨?_, hD⟩
          rintro ⟨hc, hhead⟩
          by_cases hmo : t.head? = some '/' ∧ t.tail.head? = some '*' ∧
              hasTerm t.tail.tail = true
          · exact ((adj_cons_false_iff _ _ _ _).mp hdd).1 ⟨hc, hmo.1⟩
          · rw [rbGo_normal_head hmo] at hhead
            exact ((adj_cons_false_iff _ _ _ _).mp hdd).1 ⟨hc, hhead⟩
        · refine (hasOT_cons_false_iff _ _).mpr ⟨?_, hO⟩
          rintro ⟨hc, hhead, _⟩
          by_cases hmo : t.head? = some '/' ∧ t.tail.head? = some '*' ∧
              hasTerm t.tail.tail = true
          · exact ((adj_cons_false_iff _ _ _ _).mp hdd).1 ⟨hc, hmo.1⟩
          · rw [rbGo_normal_head hmo] at hhead
            exact hop ⟨hc, hhead⟩

theorem rbGo_id_of_no_ot {cs : List Char} (h : hasOT cs = false) :
    rbGo .normal cs = cs := by
  induction cs with
  | nil => rfl
  | cons c t ih =>
    by_cases hop : c = '/' ∧ t.head? = some '*'
    · obtain ⟨rfl, hh⟩ := hop
      cases t with
      | nil => simp at hh
      | cons d w =>
        simp at hh
        subst hh
        obtain ⟨h1, h2⟩ := (hasOT_cons_false_iff _ _).mp h
        have hw : hasTerm w = false := by
          by_contra hX
          exact h1 ⟨rfl, by simp, by simpa using hX⟩
        rw [rbGo_normal_opener, if_neg (by simp [hw])]
        rw [ih h2]
    · rw [rbGo_normal_cons_ne hop, ih (hasOT_tail_false h)]

theorem remove_comments_id {cs : List Char} (hdd : hasDD cs = false)
    (hot : hasOT cs = false) : remove_comments cs = cs := by
  unfold remove_comments removeLineComments removeBlockComments
  rw [rlGo_id hdd, rbGo_id_of_no_ot hot]

theorem coGo_true_eq : ∀ (cs : List Char), coGo true cs = coGo false (cs.dropWhile isSpaceC) := by
  intro cs
  induction cs with
  | nil => rfl
  | cons c t ih =>
    by_cases hc : isSpaceC c
    · have e1 : coGo true (c :: t) = coGo true t := by simp [coGo, hc]
      rw [e1, ih, List.dropWhile_cons_of_pos hc]
    · have e1 : coGo true (c :: t) = c :: coGo false t := by simp [coGo, hc]
      rw [e1, List.dropWhile_cons_of_neg (by simpa using hc)]
      simp [coGo, hc]

theorem coGo_false_head (cs : List Char) :
    (coGo false cs).head? = cs.head?.map (fun d => if isSpaceC d then ' ' else d) := by
  cases cs with
  | nil => rfl
  | cons c t => by_cases hc : isSpaceC c <;> simp [coGo, hc]

theorem head_dropWhile_not {p : Char → Bool} : ∀ {l : List Char} {d : Char},
    (l.dropWhile p).head? = some d → p d = false := by
  intro l
  induction l with
  | nil => intro d h; simp at h
  | cons c t ih =>
    intro d h
    by_cases hc : p c
    · rw [List.dropWhile_cons_of_pos hc] at h
      exact ih h
    · rw [List.dropWhile_cons_of_neg (by simpa using hc)] at h
      simp at h
      rw [← h]
      simpa using hc

theorem dropWhile_sub_adj {x y : Char} {t : List Char} (h : hasAdjPair x y t = false) :
    hasAdjPair x y (t.dropWhile isSpaceC) = false := by
  have hsp := List.takeWhile_append_dropWhile isSpaceC t
  exact adj_append_false_right (by rw [hsp]; exact h)

theorem adj_co_false {x y : Char} (hx : isSpaceC x = false) (hy : isSpaceC y = false) :
    ∀ (n : Nat) (cs : List Char), cs.length ≤ n → hasAdjPair x y cs = false →
      hasAdjPair x y (coGo false cs) = false := by
  intro n
  induction n with
  | zero =>
    intro cs hlen _
    have h0 : cs = [] := List.length_eq_zero.mp (Nat.le_zero.mp hlen)
    subst h0
    rfl
  | succ n ih =>
    intro cs hlen hadj
    match cs with
    | [] => rfl
    | c :: t =>
      by_cases hc : isSpaceC c
      · have e1 : coGo false (c :: t) = ' ' :: coGo true t := by simp [coGo, hc]
        rw [e1, coGo_true_eq]
        refine (adj_cons_false_iff _ _ _ _).mpr ⟨?_, ?_⟩
        · rintro ⟨hsp, _⟩
          rw [← hsp] at hx
          exact absurd hx (by decide)
        · refine ih (t.dropWhile isSpaceC) ?_ (dropWhile_sub_adj (adj_tail_false hadj))
          have h1 := (List.dropWhile_sublist (l := t) isSpaceC).length_le
          simp only [List.length_cons] at hlen
          omega
      · have e1 : coGo false (c :: t) = c :: coGo false t := by simp [coGo, hc]
        rw [e1]
        obtain ⟨h1, h2⟩ := (adj_cons_false_iff x y c t).mp hadj
        refine (adj_cons_false_iff _ _ _ _).mpr
          ⟨?_, ih t (by simp only [List.length_cons] at hlen; omega) h2⟩
        rintro ⟨hcx, hhead⟩
        rw [coGo_false_head] at hhead
        cases ht : t.head? with
        | none => rw [ht] at hhead; simp at hhead
        | some d =>
          rw [ht] at hhead
          simp only [Option.map_some', Option.some.injEq] at hhead
          by_cases hd : isSpaceC d
          · rw [if_pos hd] at hhead
            rw [← hhead] at hy
            exact absurd hy (by decide)
          · rw [if_neg hd] at hhead
            exact h1 ⟨hcx, by rw [ht, hhead]⟩

theorem hasOT_append_false_right {l r : List Char} (h : hasOT (l ++ r) = false) :
    hasOT r = false := by
  induction l with
  | nil => simpa using h
  | cons a l ih => exact ih (hasOT_tail_false (by simpa using h))

theorem adj_append_left_mono {x y : Char} {l r : List Char}
    (h : hasAdjPair x y l = true) : hasAdjPair x y (l ++ r) = true := by
  by_contra hX
  have h2 : hasAdjPair x y (l ++ r) = false := by simpa using hX
  rw [adj_append_false_left h2] at h
  cases h

theorem hasOT_append_false_left {l r : List Char} (h : hasOT (l ++ r) = false) :
    hasOT l = false := by
  induction l with
  | nil => rfl
  | cons a l ih =>
    rw [List.cons_append] at h
    obtain ⟨h1, h2⟩ := (hasOT_cons_false_iff _ _).mp h
    refine (hasOT_cons_false_iff _ _).mpr ⟨?_, ih h2⟩
    rintro ⟨ha, hh, ht⟩
    cases l with
    | nil => simp at hh
    | cons b w =>
      simp only [List.head?_cons, Option.some.injEq] at hh
      simp only [List.tail_cons] at ht
      refine h1 ⟨ha, by simpa using hh, ?_⟩
      simpa using adj_append_left_mono (r := r) ht

theorem hasOT_dropWhile_sub {t : List Char} (h : hasOT t = false) :
    hasOT (t.dropWhile isSpaceC) = false := by
  have hsp := List.takeWhile_append_dropWhile isSpaceC t
  exact hasOT_append_false_right (by rw [hsp]; exact h)

theorem hasOT_co_false : ∀ (n : Nat) (cs : List Char), cs.length ≤ n → hasOT cs = false →
    hasOT (coGo false cs) = false := by
  intro n
  induction n with
  | zero =>
    intro cs hlen _
    have h0 : cs = [] := List.length_eq_zero.mp (Nat.le_zero.mp hlen)
    subst h0
    rfl
  | succ n ih =>
    intro cs hlen hot
    match cs with
    | [] => rfl
    | c :: t =>
      by_cases hc : isSpaceC c
      · have e1 : coGo false (c :: t) = ' ' :: coGo true t := by simp [coGo, hc]
        rw [e1, coGo_true_eq]
        refine (hasOT_cons_false_iff _ _).mpr ⟨?_, ?_⟩
        · rintro ⟨hsp, _, _⟩
          exact absurd hsp (by decide)
        · refine ih (t.dropWhile isSpaceC) ?_ (hasOT_dropWhile_sub (hasOT_tail_false hot))
          have h1 := (List.dropWhile_sublist (l := t) isSpaceC).length_le
          simp only [List.length_cons] at hlen
          omega
      · have e1 : coGo false (c :: t) = c :: coGo false t := by simp [coGo, hc]
        rw [e1]
        obtain ⟨h1, h2⟩ := (hasOT_cons_false_iff c t).mp hot
        refine (hasOT_cons_false_iff _ _).mpr
          ⟨?_, ih t (by simp only [List.length_cons] at hlen; omega) h2⟩
        rintro ⟨hcx, hhead, hterm⟩
        rw [coGo_false_head] at hhead
        cases t with
        | nil => simp at hhead
        | cons d u =>
          simp only [List.head?_cons, Option.map_some', Option.some.injEq] at hhead
          by_cases hd : isSpaceC d
          · rw [if_pos hd] at hhead
            exact absurd hhead (by decide)
          · rw [if_neg hd] at hhead
            subst hhead
            have hterm_u : hasTerm u = false := by
              by_contra hX
              exact h1 ⟨hcx, by simp, by simpa using hX⟩
            have e2 : coGo false ('*' :: u) = '*' :: coGo false u := by
              simp [coGo, isSpaceC]
            rw [e2] at hterm
            simp only [List.tail_cons] at hterm
            have h3 : hasTerm (coGo false u) = false :=
              adj_co_false (by decide) (by decide) u.length u le_rfl hterm_u
            rw [h3] at hterm
            cases hterm

theorem coGo_false_spaces : ∀ (n : Nat) (cs : List Char), cs.length ≤ n →
    ∀ c ∈ coGo false cs, isSpaceC c = true → c = ' ' := by
  intro n
  induction n with
  | zero =>
    intro cs hlen
    have h0 : cs = [] := List.length_eq_zero.mp (Nat.le_zero.mp hlen)
    subst h0
    intro c hc
    simp [coGo] at hc
  | succ n ih =>
    intro cs hlen c hc hsp
    match cs with
    | [] => simp [coGo] at hc
    | d :: t =>
      by_cases hd : isSpaceC d
      · have e1 : coGo false (d :: t) = ' ' :: coGo true t := by simp [coGo, hd]
        rw [e1, coGo_true_eq] at hc
        rcases List.mem_cons.mp hc with hh | hh
        · exact hh
        · refine ih (t.dropWhile isSpaceC) ?_ c hh hsp
          have h1 := (List.dropWhile_sublist (l := t) isSpaceC).length_le
          simp only [List.length_cons] at hlen
          omega
      · have e1 : coGo false (d :: t) = d :: coGo false t := by simp [coGo, hd]
        rw [e1] at hc
        rcases List.mem_cons.mp hc with hh | hh
        · subst hh
          rw [hsp] at hd
          cases hd rfl
        · exact ih t (by simp only [List.length_cons] at hlen; omega) c hh hsp

theorem coGo_no_double_space : ∀ (n : Nat) (cs : List Char), cs.length ≤ n →
    hasAdjPair ' ' ' ' (coGo false cs) = false := by
  intro n
  induction n with
  | zero =>
    intro cs hlen
    have h0 : cs = [] := List.length_eq_zero.mp (Nat.le_zero.mp hlen)
    subst h0
    rfl
  | succ n ih =>
    intro cs hlen
    match cs with
    | [] => rfl
    | c :: t =>
      by_cases hc : isSpaceC c
      · have e1 : coGo false (c :: t) = ' ' :: coGo true t := by simp [coGo, hc]
        rw [e1, coGo_true_eq]
        refine (adj_cons_false_iff _ _ _ _).mpr ⟨?_, ?_⟩
        · rintro ⟨_, hhead⟩
          rw [coGo_false_head] at hhead
          cases hu : (t.dropWhile isSpaceC).head? with
          | none => rw [hu] at hhead; simp at hhead
          | some d =>
            rw [hu] at hhead
            have hnd : isSpaceC d = false := head_dropWhile_not hu
            simp only [Option.map_some', Option.some.injEq] at hhead
            rw [if_neg (by simp [hnd])] at hhead
            rw [hhead] at hnd
            exact absurd hnd (by decide)
        · refine ih (t.dropWhile isSpaceC) ?_
          have h1 := (List.dropWhile_sublist (l := t) isSpaceC).length_le
          simp only [List.length_cons] at hlen
          omega
      · have e1 : coGo false (c :: t) = c :: coGo false t := by simp [coGo, hc]
        rw [e1]
        refine (adj_cons_false_iff _ _ _ _).mpr
          ⟨?_, ih t (by simp only [List.length_cons] at hlen; omega)⟩
        rintro ⟨hcsp, _⟩
        rw [hcsp] at hc
        exact hc (by decide)

theorem coGo_id : ∀ (cs : List Char), (∀ c ∈ cs, isSpaceC c = true → c = ' ') →
    hasAdjPair ' ' ' ' cs = false → coGo false cs = cs := by
  intro cs
  induction cs with
  | nil => intro _ _; rfl
  | cons c t ih =>
    intro hall hadj
    by_cases hc : isSpaceC c
    · have hcs : c = ' ' := hall c (List.mem_cons_self _ _) hc
      subst hcs
      have e1 : coGo false (' ' :: t) = ' ' :: coGo true t := by
        simp [coGo, isSpaceC]
      rw [e1, coGo_true_eq]
      have hth : t.dropWhile isSpaceC = t := by
        cases t with
        | nil => rfl
        | cons d u =>
          have hd : ¬ isSpaceC d = true := by
            intro hdsp
            have hd' : d = ' ' := hall d (List.mem_cons_of_mem _ (List.mem_cons_self _ _)) hdsp
            exact absurd ((adj_cons_false_iff _ _ _ _).mp hadj).1
              (by simp [hd'])
          exact List.dropWhile_cons_of_neg (by simpa using hd)
      rw [hth, ih (fun c hcm => hall c (List.mem_cons_of_mem _ hcm)) (adj_tail_false hadj)]
    · have e1 : coGo false (c :: t) = c :: coGo false t := by simp [coGo, hc]
      rw [e1, ih (fun c hcm => hall c (List.mem_cons_of_mem _ hcm)) (adj_tail_false hadj)]

theorem coGo_false_ne_nil {c : Char} {t : List Char} : coGo false (c :: t) ≠ [] := by
  by_cases hc : isSpaceC c <;> simp [coGo, hc]

theorem getLast?_cons_of_ne_nil (a : Char) {l : List Char} (h : l ≠ []) :
    (a :: l).getLast? = l.getLast? := by
  cases l with
  | nil => cases h rfl
  | cons b u => exact List.getLast?_cons_cons

theorem getLast?_cons_ne_none (a : Char) (l : List Char) : (a :: l).getLast? ≠ none := by
  induction l generalizing a with
  | nil => simp
  | cons b u ih =>
    rw [List.getLast?_cons_cons]
    exact ih b

theorem coGo_getLast : ∀ (n : Nat) (cs : List Char), cs.length ≤ n →
    ∀ d, cs.getLast? = some d → isSpaceC d = false →
      (coGo false cs).getLast? = some d := by
  intro n
  induction n with
  | zero =>
    intro cs hlen d hd _
    have h0 : cs = [] := List.length_eq_zero.mp (Nat.le_zero.mp hlen)
    subst h0
    simp at hd
  | succ n ih =>
    intro cs hlen d hd hns
    match cs with
    | [] => simp at hd
    | [c] =>
      have hdc : d = c := Eq.symm (by simpa using hd)
      subst hdc
      have e1 : coGo false [d] = [d] := by simp [coGo, hns]
      rw [e1]
      simp
    | c :: e :: u =>
      have hd' : (e :: u).getLast? = some d := by
        rw [← List.getLast?_cons_cons (a := c)]
        exact hd
      by_cases hc : isSpaceC c
      · have e1 : coGo false (c :: e :: u) = ' ' :: coGo true (e :: u) := by
          simp [coGo, hc]
        rw [e1, coGo_true_eq]
        have hne : (e :: u).dropWhile isSpaceC ≠ [] := by
          intro hnil
          have hall := List.dropWhile_eq_nil_iff.mp hnil
          have hmem := List.mem_of_mem_getLast? hd'
          have hds := hall d hmem
          rw [hns] at hds
          cases hds
        have hdw : ((e :: u).dropWhile isSpaceC).getLast? = some d := by
          have h2 := List.getLast?_append_of_ne_nil
            (List.takeWhile isSpaceC (e :: u)) hne
          rw [List.takeWhile_append_dropWhile] at h2
          rw [← h2]
          exact hd'
        have hlen2 : ((e :: u).dropWhile isSpaceC).length ≤ n := by
          have h1 := (List.dropWhile_sublist (l := e :: u) isSpaceC).length_le
          simp only [List.length_cons] at hlen h1
          omega
        have hrec := ih _ hlen2 d hdw hns
        obtain ⟨a, t2, he2⟩ := List.exists_cons_of_ne_nil hne
        rw [getLast?_cons_of_ne_nil ' ' (by rw [he2]; exact coGo_false_ne_nil)]
        exact hrec
      · have e1 : coGo false (c :: e :: u) = c :: coGo false (e :: u) := by
          simp [coGo, hc]
        rw [e1, getLast?_cons_of_ne_nil c coGo_false_ne_nil]
        exact ih (e :: u) (by simp only [List.length_cons] at hlen ⊢; omega) d hd' hns

theorem dropWhile_id_of_head {p : Char → Bool} {cs : List Char}
    (h : ∀ d, cs.head? = some d → p d = false) : cs.dropWhile p = cs := by
  cases cs with
  | nil => rfl
  | cons c t => exact List.dropWhile_cons_of_neg (by simp [h c rfl])

theorem rtrim_id {cs : List Char}
    (h : ∀ d, cs.getLast? = some d → isSpaceC d = false) : rtrim cs = cs := by
  unfold rtrim
  rw [dropWhile_id_of_head, List.reverse_reverse]
  intro d hd
  rw [List.head?_reverse] at hd
  exact h d hd

theorem rtrim_eq_append (cs : List Char) : ∃ s, cs = rtrim cs ++ s := by
  refine ⟨(cs.reverse.takeWhile isSpaceC).reverse, ?_⟩
  unfold rtrim
  rw [← List.reverse_append, List.takeWhile_append_dropWhile, List.reverse_reverse]

theorem remove_whitespace_id {cs : List Char}
    (hh : ∀ d, cs.head? = some d → isSpaceC d = false)
    (hl : ∀ d, cs.getLast? = some d → isSpaceC d = false)
    (hsp : ∀ c ∈ cs, isSpaceC c = true → c = ' ')
    (hdb : hasAdjPair ' ' ' ' cs = false) :
    remove_whitespace cs = cs := by
  unfold remove_whitespace collapseWs ltrim
  rw [dropWhile_id_of_head hh, rtrim_id hl]
  exact coGo_id cs hsp hdb

theorem remove_whitespace_head {cs : List Char} {d : Char}
    (h : (remove_whitespace cs).head? = some d) : isSpaceC d = false := by
  unfold remove_whitespace collapseWs at h
  rw [coGo_false_head] at h
  cases hr : (rtrim (ltrim cs)).head? with
  | none =>
    rw [hr] at h
    simp at h
  | some e =>
    rw [hr] at h
    obtain ⟨s, hs⟩ := rtrim_eq_append (ltrim cs)
    have he : (ltrim cs).head? = some e := by
      rw [hs]
      cases hx : rtrim (ltrim cs) with
      | nil =>
        rw [hx] at hr
        simp at hr
      | cons a t =>
        rw [hx] at hr
        simp only [List.head?_cons, Option.some.injEq] at hr
        subst hr
        rfl
    have hens : isSpaceC e = false := head_dropWhile_not (p := isSpaceC) (l := cs) he
    simp only [Option.map_some', Option.some.injEq] at h
    rw [if_neg (by simp [hens])] at h
    rw [← h]
    exact hens

theorem remove_whitespace_last {cs : List Char} {d : Char}
    (h : (remove_whitespace cs).getLast? = some d) : isSpaceC d = false := by
  unfold remove_whitespace collapseWs at h
  cases hr : (rtrim (ltrim cs)).getLast? with
  | none =>
    have h0 : rtrim (ltrim cs) = [] := by
      cases hx : rtrim (ltrim cs) with
      | nil => rfl
      | cons a t =>
        rw [hx] at hr
        exact absurd hr (getLast?_cons_ne_none a t)
    rw [h0] at h
    simp [coGo] at h
  | some e =>
    have hens : isSpaceC e = false := by
      have h1 : (rtrim (ltrim cs)).getLast? =
          ((ltrim cs).reverse.dropWhile isSpaceC).head? := by
        unfold rtrim
        exact List.getLast?_reverse _
      rw [hr] at h1
      exact head_dropWhile_not (p := isSpaceC) h1.symm
    have h2 := coGo_getLast (rtrim (ltrim cs)).length (rtrim (ltrim cs)) le_rfl e hr hens
    rw [h2] at h
    simp only [Option.some.injEq] at h
    rw [← h]
    exact hens

theorem strip_no_comment (T : List Char) :
    hasDD (remove_whitespace (remove_comments T)) = false ∧
      hasOT (remove_whitespace (remove_comments T)) = false := by
  have hdd1 : hasDD (removeLineComments T) = false := rlGo_no_dd T false
  have hB := rbGo_normal_no_comment (removeLineComments T).length (removeLineComments T)
      le_rfl hdd1
  have hBdd : hasDD (remove_comments T) = false := hB.1
  have hBot : hasOT (remove_comments T) = false := hB.2
  have hsplit : remove_comments T =
      (remove_comments T).takeWhile isSpaceC ++ ltrim (remove_comments T) :=
    (List.takeWhile_append_dropWhile isSpaceC _).symm
  have hXdd : hasDD (ltrim (remove_comments T)) = false :=
    adj_append_false_right (by rw [← hsplit]; exact hBdd)
  have hXot : hasOT (ltrim (remove_comments T)) = false :=
    hasOT_append_false_right (by rw [← hsplit]; exact hBot)
  obtain ⟨s, hsX⟩ := rtrim_eq_append (ltrim (remove_comments T))
  have hRdd : hasDD (rtrim (ltrim (remove_comments T))) = false :=
    adj_append_false_left (by rw [← hsX]; exact hXdd)
  have hRot : hasOT (rtrim (ltrim (remove_comments T))) = false :=
    hasOT_append_false_left (by rw [← hsX]; exact hXot)
  constructor
  · show hasAdjPair '/' '/' (coGo false (rtrim (ltrim (remove_comments T)))) = false
    exact adj_co_false (by decide) (by decide) _ _ le_rfl hRdd
  · show hasOT (coGo false (rtrim (ltrim (remove_comments T)))) = false
    exact hasOT_co_false _ _ le_rfl hRot

/-- C7: the lexical stripper, `remove_comments` followed by
`remove_whitespace`, is idempotent: for every input text its second
application returns the first application's output unchanged. The first
pass leaves no `//` marker, no terminated `/*` opener, no leading,
trailing or doubled whitespace, and every whitespace character is the
single space the collapse pass emits, so both stages of the second pass
are the identity. -/
theorem lexical_stripper_idempotent (T : List Char) :
    remove_whitespace (remove_comments (remove_whitespace (remove_comments T))) =
      remove_whitespace (remove_comments T) := by
  obtain ⟨hdd, hot⟩ := strip_no_comment T
  rw [remove_comments_id hdd hot]
  have hR := coGo_false_spaces (rtrim (ltrim (remove_comments T))).length
      (rtrim (ltrim (remove_comments T))) le_rfl
  have hD := coGo_no_double_space (rtrim (ltrim (remove_comments T))).length
      (rtrim (ltrim (remove_comments T))) le_rfl
  exact remove_whitespace_id (fun d hd => remove_whitespace_head hd)
    (fun d hd => remove_whitespace_last hd) hR hD

end ShaderOpt
